import Mathlib

/-!
Verification development for the chord model, key estimator, document
transposer and notation line splitter of `pychord.py`.

Strings from the source are modelled as `List Char`; Python dictionaries
become association lists; fallible operations (KeyError, a failed regex
match, an unbound local variable) return `Option` / `Except PyErr`.
-/

set_option autoImplicit false
set_option maxRecDepth 8192

namespace Pychord

/-- Python exception kinds that can escape the transposition path. -/
inductive PyErr where
  | chordError
  | keyError
  | typeError
  | nameError
  | indexError
  | nonTermination
deriving DecidableEq

deriving instance DecidableEq for Except

/-- Association-list lookup, modelling a Python dict lookup `m[k]`. -/
def alookup {α : Type} [DecidableEq α] {β : Type} : List (α × β) → α → Option β
  | [], _ => none
  | p :: rest, k => if p.1 = k then some p.2 else alookup rest k

/-- The `chord_to_offset` dictionary: pitch-class spelling to offset 0..11. -/
def chordToOffsetList : List (List Char × Nat) :=
  [ (['C'], 0), (['C', '#'], 1), (['D', 'b'], 1), (['D'], 2), (['D', '#'], 3),
    (['E', 'b'], 3), (['E'], 4), (['F'], 5), (['F', '#'], 6), (['G', 'b'], 6),
    (['G'], 7), (['G', '#'], 8), (['A', 'b'], 8), (['A'], 9), (['A', '#'], 10),
    (['B', 'b'], 10), (['B'], 11) ]

def chord_to_offset (s : List Char) : Option Nat := alookup chordToOffsetList s

/-- The `map_transpose_semitone` dictionary: spelling to the spelling one
semitone up. -/
def semitoneList : List (List Char × List Char) :=
  [ (['C', '#'], ['D']), (['D', '#'], ['E']), (['F', '#'], ['G']),
    (['G', '#'], ['A']), (['A', '#'], ['B']), (['D', 'b'], ['D']),
    (['E', 'b'], ['E']), (['G', 'b'], ['G']), (['A', 'b'], ['A']),
    (['B', 'b'], ['B']), (['C'], ['C', '#']), (['D'], ['D', '#']),
    (['E'], ['F']), (['F'], ['F', '#']), (['G'], ['G', '#']),
    (['A'], ['A', '#']), (['B'], ['C']) ]

def map_transpose_semitone (s : List Char) : Option (List Char) := alookup semitoneList s

/-- The `map_accidental_flat` dictionary (sharp spelling to flat spelling). -/
def flatList : List (List Char × List Char) :=
  [ (['C', '#'], ['D', 'b']), (['D', '#'], ['E', 'b']), (['F', '#'], ['G', 'b']),
    (['G', '#'], ['A', 'b']), (['A', '#'], ['B', 'b']) ]

/-- The `map_accidental_sharp` dictionary (flat spelling to sharp spelling). -/
def sharpList : List (List Char × List Char) :=
  [ (['D', 'b'], ['C', '#']), (['E', 'b'], ['D', '#']), (['G', 'b'], ['F', '#']),
    (['A', 'b'], ['G', '#']), (['B', 'b'], ['A', '#']) ]

/-- The `key_norm` list: per offset, the accidental most likely used in that
key.  In the source it is a Python list of one-character strings. -/
def key_norm : List Char :=
  ['b', '#', '#', 'b', '#', 'b', '#', '#', '#', '#', 'b', '#']

/-- `key_norm[o]` for an offset `o` coming from `chord_to_offset`, which is
always below 12, so the default branch is never taken. -/
def keyNormAt (o : Nat) : Char := key_norm.getD o '#'

/-- The `chord_multiplier` dictionary, built by zero-initialising the 24
entries `"0".."11"` and `"0m".."11m"` and then overwriting six of them. -/
def chord_multiplier (off : Nat) (minor : Bool) : Nat :=
  if minor then
    if off = 2 then 1 else if off = 4 then 1 else if off = 9 then 2 else 0
  else
    if off = 0 then 2 else if off = 5 then 1 else if off = 7 then 1 else 0

/-! ## Per-paragraph chord histograms and the key estimator -/

/-- A paragraph's `chord_count` dictionary: entry `(i, m)` counts chords with
root offset `i` and minor flag `m`. -/
def Hist : Type := Nat → Bool → Nat

/-- The zero-initialised histogram. -/
def emptyHist : Hist := fun _ _ => 0

/-- Increment one histogram entry (`chord_count[...] += 1`). -/
def bumpHist (h : Hist) (off : Nat) (m : Bool) : Hist :=
  fun i b => if i = off ∧ b = m then h i b + 1 else h i b

/-- One iteration of the inner `for i in range(12)` loop of the key scorer:
state is `(value, bestvalue, bestkey)`; the two `+=` lines are followed by the
comparison of the running partial sum against the best so far, exactly as in
the source. -/
def scoreStep (count : Hist) (key : Nat) (st : Nat × Nat × Nat) (i : Nat) : Nat × Nat × Nat :=
  let v1 := st.1 + chord_multiplier ((i + 12 - key % 12) % 12) false * count i false
  let v2 := v1 + chord_multiplier ((i + 12 - key % 12) % 12) true * count i true
  if st.2.1 < v2 then (v2, v2, key) else (v2, st.2.1, st.2.2)

/-- One iteration of the outer `for key in range(12)` loop: reset `value` to 0
and run the inner loop, keeping `(bestvalue, bestkey)`. -/
def scoreKey (count : Hist) (st : Nat × Nat) (key : Nat) : Nat × Nat :=
  ((List.range 12).foldl (scoreStep count key) (0, st)).2

/-- The full key-scoring loop: returns `(bestvalue, bestkey)`, both
initialised to 0 as in the source. -/
def findBestKey (count : Hist) : Nat × Nat :=
  (List.range 12).foldl (scoreKey count) (0, 0)

/-- The term the inner loop adds for offset `i` when scoring candidate `key`.
`(i + 12 - key % 12) % 12` equals Python's `(i - key) % 12` for naturals. -/
def addend (count : Hist) (key i : Nat) : Nat :=
  chord_multiplier ((i + 12 - key % 12) % 12) false * count i false +
  chord_multiplier ((i + 12 - key % 12) % 12) true * count i true

/-- The total weighted score of candidate `key` against a histogram. -/
def paraScore (count : Hist) (key : Nat) : Nat :=
  ((List.range 12).map (addend count key)).sum

/-- The `(key, val)` pair stored into a paragraph record: `p["key"]` is the
best key, `p["val"]` the best value. -/
def keyOf (h : Hist) : Nat × Nat := ((findBestKey h).2, (findBestKey h).1)

/-! ## The chord model -/

/-- The character class `[A-Ga-g]` of the root regex. -/
def isRootLetter (c : Char) : Bool :=
  ('A' ≤ c && c ≤ 'G') || ('a' ≤ c && c ≤ 'g')

/-- The character class `[b#]` of the root regex. -/
def isAccidentalChar (c : Char) : Bool :=
  c = 'b' || c = '#'

/-- The raw capture groups of
`^([(])?([A-Ga-g][b#]?)([^/]*)[/]?([A-Ga-g][b#]?)?(.*)$`
before `Chord.__init__` post-processes them.  `slash` records whether the
optional `[/]?` consumed a `/` (information Python drops). -/
structure RawChord where
  opening : Bool
  rootRaw : List Char
  triadRaw : List Char
  slash : Bool
  bassRaw : List Char
  restRaw : List Char
deriving DecidableEq

/-- Match `([A-Ga-g][b#]?)` greedily at the head of the input, returning the
matched spelling and the remaining characters. -/
def parseRoot : List Char → Option (List Char × List Char)
  | [] => none
  | c :: r =>
    if isRootLetter c then
      match r with
      | a :: r2 => if isAccidentalChar a then some ([c, a], r2) else some ([c], r)
      | [] => some ([c], [])
    else none

/-- The negated character class `[^/]` (and the loop guard of `[^/]*`). -/
def notSlash (x : Char) : Bool := x ≠ '/'

/-- The negated character class `[^\]]` used by the line splitter. -/
def notCloseBracket (x : Char) : Bool := x ≠ ']'

/-- Match the optional bass group `([A-Ga-g][b#]?)?`: on failure the group is
empty and consumes nothing. -/
def parseBassOpt (s : List Char) : List Char × List Char :=
  match parseRoot s with
  | some (b, r) => (b, r)
  | none => ([], s)

/-- Match the optional group `([(])?` at the head of the input. -/
def parseParen (s : List Char) : Bool × List Char :=
  match s with
  | [] => (false, [])
  | c :: r => if c = '(' then (true, r) else (false, c :: r)

/-- The full regex of `Chord.__init__`.  All parts after the root are
optional or unbounded, so the greedy match never backtracks: the optional
leading `(`, the root, then `[^/]*` up to the first `/` (or the end), an
optional `/`, an optional bass spelling and the unconstrained tail.  When
`dropWhile` leaves a nonempty list its head is necessarily the `/` that the
`[/]?` group consumes. -/
def parseRaw (s : List Char) : Option RawChord :=
  let op := parseParen s
  match parseRoot op.2 with
  | none => none
  | some rs =>
    let triad := rs.2.takeWhile notSlash
    match rs.2.dropWhile notSlash with
    | [] => some ⟨op.1, rs.1, triad, false, [], []⟩
    | _ :: s4 =>
      let bp := parseBassOpt s4
      some ⟨op.1, rs.1, triad, true, bp.1, bp.2⟩

/-- Python 2 `string.capitalize`: first character uppercased, the rest
lowercased. -/
def capitalize : List Char → List Char
  | [] => []
  | c :: r => c.toUpper :: r.map Char.toLower

/-- `re.sub("maj", "", t)`: delete every non-overlapping occurrence of the
literal `maj`, scanning left to right. -/
def stripMaj : List Char → List Char
  | 'm' :: 'a' :: 'j' :: r => stripMaj r
  | c :: r => c :: stripMaj r
  | [] => []

/-- A parsed chord as stored by `Chord.__init__`: empty groups become `None`
(here `none`), root and bass are capitalised, and the minor flag is derived
from the triad with `maj` stripped. -/
structure Chord where
  opening_brace : Bool
  root : List Char
  triad : Option (List Char)
  bass : Option (List Char)
  bassrest : Option (List Char)
  minor : Bool
deriving DecidableEq

/-- The field assignments of `Chord.__init__` applied to the regex groups. -/
def mkChord (r : RawChord) : Chord :=
  let triad : Option (List Char) := if r.triadRaw = [] then none else some r.triadRaw
  { opening_brace := r.opening
    root := capitalize r.rootRaw
    triad := triad
    bass := if r.bassRaw = [] then none else some (capitalize r.bassRaw)
    bassrest := if r.restRaw = [] then none else some r.restRaw
    minor := match triad with
      | some t => (stripMaj t).head? = some 'm'
      | none => false }

/-- `Chord(token)`: regex match plus field extraction; `none` models the
raised `ChordError`. -/
def parseChord (s : List Char) : Option Chord := (parseRaw s).map mkChord

/-- `Chord.chord()`: re-serialize the chord token. -/
def Chord.chord (c : Chord) : List Char :=
  (if c.opening_brace then ['('] else []) ++ c.root ++ c.triad.getD [] ++
    (match c.bass with
     | some b => '/' :: b
     | none => []) ++ c.bassrest.getD []

/-- One iteration of the `while shift:` loop of `Chord.transpose`: step the
root (and the bass, when present) one semitone up; a spelling outside the map
raises a KeyError, modelled by `none`. -/
def transposeStep (c : Chord) : Option Chord :=
  match map_transpose_semitone c.root, c.bass with
  | none, _ => none
  | some r, none => some { c with root := r }
  | some r, some b =>
    match map_transpose_semitone b with
    | none => none
    | some b2 => some { c with root := r, bass := some b2 }

/-- `Chord.transpose(shift)` for a nonnegative shift: walk the semitone map
`shift` times. -/
def Chord.transpose (c : Chord) : Nat → Option Chord
  | 0 => some c
  | n + 1 => (transposeStep c).bind (fun c2 => c2.transpose n)

/-- `Chord.normalise(accidental)`: rewrite root and bass through the flat map
when the accidental is `'b'`, otherwise through the sharp map; spellings not
in the map are left alone. -/
def Chord.normalise (c : Chord) (accidental : Char) : Chord :=
  let m := if accidental = 'b' then flatList else sharpList
  { c with
    root := (alookup m c.root).getD c.root
    bass := c.bass.map (fun b => (alookup m b).getD b) }

/-- The pitch-class offset of a chord's bass, when a bass is present and its
spelling is in the table. -/
def bassOff (c : Chord) : Option Nat := c.bass.bind chord_to_offset

/-- Does a character list start with an accidental character? -/
def accHead : List Char → Bool
  | a :: _ => isAccidentalChar a
  | [] => false

/-- The shape of a string matched by the root group `[A-Ga-g][b#]?`. -/
def goodRoot (l : List Char) : Prop :=
  (∃ c, l = [c] ∧ isRootLetter c = true) ∨
  (∃ c a, l = [c, a] ∧ isRootLetter c = true ∧ isAccidentalChar a = true)

/-! ## The notation line splitter -/

/-- Locate the leftmost match of the pattern of
`re.split("\\[([^\\]]*)\\]", line)`: a `[`, then the maximal run of
non-`]` characters, then a `]`.  Returns `(text before, group, tail after)`.
If the first `[` has no `]` after it, no later `[` has one either, so there
is no match at all. -/
def splitFirst : List Char → Option (List Char × List Char × List Char)
  | [] => none
  | c :: r =>
    if c = '[' then
      match r.dropWhile notCloseBracket with
      | ']' :: tail => some ([], r.takeWhile notCloseBracket, tail)
      | _ => none
    else
      match splitFirst r with
      | some (p, b, t) => some (c :: p, b, t)
      | none => none

/-- Fuelled worker for the splitter; each match consumes at least the two
bracket characters, so `length + 1` fuel always suffices. -/
def splitLineF : Nat → List Char → List (List Char)
  | 0, s => [s]
  | fuel + 1, s =>
    match splitFirst s with
    | none => [s]
    | some (p, b, t) => p :: b :: splitLineF fuel t

/-- `re.split("\\[([^\\]]*)\\]", line)`: alternating plain-text and
chord-group segments, starting and ending with a text segment. -/
def splitLine (s : List Char) : List (List Char) :=
  splitLineF (s.length + 1) s

/-- The Python slice `l[1::2]`. -/
def oddSlots {α : Type} : List α → List α
  | _ :: y :: r => y :: oddSlots r
  | _ => []

/-- The chord tokens of one line: `re.split(...)[1::2]`. -/
def chordsOf (line : List Char) : List (List Char) := oddSlots (splitLine line)

/-- Reinsert the brackets around the chord segments; mapping a split back to
the original line. -/
def rejoinWithBrackets : List (List Char) → List Char
  | [] => []
  | [t] => t
  | t :: c :: rest => t ++ '[' :: (c ++ ']' :: rejoinWithBrackets rest)

/-! ## `parse_file`, transposition path -/

/-- Python's `re.match("^\\s*$", line)`: the line is empty or all
whitespace (the model covers the ASCII whitespace class). -/
def pyIsSpace (c : Char) : Bool :=
  c = ' ' || c = '\t' || c = '\n' || c = '\r' || c = '\x0b' || c = '\x0c'

def isBlank (line : List Char) : Bool := line.all pyIsSpace

/-- Count one chord token into the current paragraph histogram:
`Chord(chord)` may raise ChordError, and `chord_to_offset[chord.root]` may
raise KeyError (e.g. for the parseable spelling `Cb`). -/
def countTok (h : Hist) (tok : List Char) : Except PyErr Hist :=
  match parseChord tok with
  | none => .error .chordError
  | some c =>
    match chord_to_offset c.root with
    | none => .error .keyError
    | some off => .ok (bumpHist h off c.minor)

/-- Count every chord token of a token list, left to right. -/
def countToks (h : Hist) : List (List Char) → Except PyErr Hist
  | [] => .ok h
  | tok :: rest =>
    match countTok h tok with
    | .error e => .error e
    | .ok h2 => countToks h2 rest

/-- Count the chord tokens of one line (pass 1 has no emptiness check, so an
empty `[]` token reaches `Chord("")` and raises). -/
def countLine (h : Hist) (line : List Char) : Except PyErr Hist :=
  countToks h (chordsOf line)

/-- Pass 1 over the remaining lines: a whitespace-only line closes the
current paragraph and opens a fresh one, and the chord extraction then runs
on the same line (the source has no `continue` in the blank branch). -/
def pass1go (done : List Hist) (cur : Hist) : List (List Char) → Except PyErr (List Hist)
  | [] => .ok (done ++ [cur])
  | line :: rest =>
    let st : List Hist × Hist := if isBlank line then (done ++ [cur], emptyHist) else (done, cur)
    match countLine st.2 line with
    | .error e => .error e
    | .ok cur2 => pass1go st.1 cur2 rest

/-- Pass 1 (counting) over the whole document. -/
def pass1 (text : List (List Char)) : Except PyErr (List Hist) :=
  pass1go [] emptyHist text

/-- The `shift`/`first_key` loop of pass 2.  `first_key` starts as `None`;
`if p["key"] and not first_key` only ever stores a nonzero key; the first
paragraph with a positive value fixes the shift (Python `-1` start is
modelled as `none`, meaning the loop never found a confident paragraph).
`(t + 12 - key % 12) % 12` is Python's `(t - key) % 12` on naturals. -/
def computeShiftGo (target : List Char) :
    List (Nat × Nat) → Option Nat → Except PyErr (Option Nat × Option Nat)
  | [], fk => .ok (none, fk)
  | (key, val) :: rest, fk =>
    let fk2 := if key ≠ 0 ∧ fk = none then some key else fk
    if 0 < val then
      match chord_to_offset target with
      | none => .error .keyError
      | some t => .ok (some ((t + 12 - key % 12) % 12), fk2)
    else computeShiftGo target rest fk2

/-- Resolution of the working accidental `norm`.  `transpose in key_norm`
tests the target string against a list holding only the strings `"b"` and
`"#"`; when it succeeds, `key_norm[transpose]` indexes a list with a string
and raises TypeError.  Otherwise a known key sets `norm` from its offset and
an unknown one leaves the local variable unassigned (`none`), which raises a
NameError if it is ever read. -/
def computeNorm (target : List Char) : Except PyErr (Option Char) :=
  if target = ['b'] ∨ target = ['#'] then .error .typeError
  else
    match chord_to_offset target with
    | some o => .ok (some (keyNormAt o))
    | none => .ok none

/-- Python `first_key in key_norm` inside pass 3: an `int` tested for
membership in a list of one-character strings.  `int == str` is `False` in
Python, so the test is constantly false and the `norm` switch it guards is
dead code. -/
def int_in_key_norm (_k : Nat) : Bool := false

/-- The key-change handling at the top of the pass-3 loop body:
`if pkey and pkey != first_key` adopts a new *nonzero* paragraph key, and the
inner `if first_key in key_norm` (always false) would update `norm`. -/
def keyChangeStep (fk : Option Nat) (norm : Option Char) (pkey : Nat) :
    Option Nat × Option Char :=
  if pkey ≠ 0 ∧ some pkey ≠ fk then
    (some pkey, if int_in_key_norm pkey then some (keyNormAt pkey) else norm)
  else (fk, norm)

/-- Rewrite one chord slot in pass 3.  An empty token is skipped
(`if chord:`) and its slot keeps the bare empty group text.  Otherwise the
token is parsed, transposed by `shift` (a `None` shift stands for the
untouched `-1`, whose `while shift` loop would never terminate) and
normalised with `norm` (reading an unassigned `norm` raises NameError); the
result is spliced back with brackets. -/
def rewriteChordTok (shift : Option Nat) (norm : Option Char) (tok : List Char) :
    Except PyErr (List Char) :=
  if tok = [] then .ok tok
  else
    match parseChord tok with
    | none => .error .chordError
    | some c =>
      match shift with
      | none => .error .nonTermination
      | some n =>
        match c.transpose n with
        | none => .error .keyError
        | some c2 =>
          match norm with
          | none => .error .nameError
          | some a => .ok ('[' :: ((c2.normalise a).chord ++ [']']))

/-- Rewrite the alternating segment list of one line and concatenate it
back, as `"".join` does after the chord slots are replaced in place. -/
def rewriteSegs (shift : Option Nat) (norm : Option Char) :
    List (List Char) → Except PyErr (List Char)
  | [] => .ok []
  | [t] => .ok t
  | t :: tok :: rest =>
    match rewriteChordTok shift norm tok with
    | .error e => .error e
    | .ok c =>
      match rewriteSegs shift norm rest with
      | .error e => .error e
      | .ok r => .ok (t ++ (c ++ r))

/-- Rewrite one full line of pass 3. -/
def rewriteLine (shift : Option Nat) (norm : Option Char) (line : List Char) :
    Except PyErr (List Char) :=
  rewriteSegs shift norm (splitLine line)

/-- Pass 3: per line, read the current paragraph's key, run the key-change
step, advance the paragraph index on a blank line, and rewrite the line's
chords with the fixed `shift` and current `norm`. -/
def pass3 (keys : List (Nat × Nat)) (shift : Option Nat) :
    Nat → Option Nat → Option Char → List (List Char) → Except PyErr (List (List Char))
  | _, _, _, [] => .ok []
  | idx, fk, norm, line :: rest =>
    match keys.get? idx with
    | none => .error .indexError
    | some kv =>
      let st := keyChangeStep fk norm kv.1
      let idx2 := if isBlank line then idx + 1 else idx
      match rewriteLine shift st.2 line with
      | .error e => .error e
      | .ok nl =>
        match pass3 keys shift idx2 st.1 st.2 rest with
        | .error e => .error e
        | .ok rest2 => .ok (nl :: rest2)

/-- Passes 1 and 2: counting, per-paragraph key estimation, shift and norm
resolution — everything that runs before the rewrite pass. -/
def prePass3 (target : List Char) (text : List (List Char)) :
    Except PyErr (List (Nat × Nat) × Option Nat × Option Nat × Option Char) :=
  match pass1 text with
  | .error e => .error e
  | .ok hists =>
    let keys := hists.map keyOf
    match computeShiftGo target keys none with
    | .error e => .error e
    | .ok sf =>
      match computeNorm target with
      | .error e => .error e
      | .ok norm => .ok (keys, sf.1, sf.2, norm)

/-- The transposition path of `parse_file`: passes 1 and 2, then the rewrite
pass; the rewritten document is only produced if no exception escaped. -/
def parse_file_transpose (target : List Char) (text : List (List Char)) :
    Except PyErr (List (List Char)) :=
  match prePass3 target text with
  | .error e => .error e
  | .ok r => pass3 r.1 r.2.1 0 r.2.2.1 r.2.2.2 text

/-- The total number of chords counted into a histogram (entries 0..11). -/
def mass (h : Hist) : Nat :=
  ((List.range 12).map (fun i => h i false + h i true)).sum

/-- The number of blank lines of the document; pass 1 creates exactly one
more paragraph record than this. -/
def countBlank (text : List (List Char)) : Nat :=
  (text.filter (fun l => isBlank l)).length

/-! ## Lemmas about the key estimator -/

theorem scoreStep_foldl (count : Hist) (key : Nat) (l : List Nat) (v bv bk : Nat)
    (hvb : v ≤ bv) :
    l.foldl (scoreStep count key) (v, bv, bk) =
      (v + (l.map (addend count key)).sum,
        if bv < v + (l.map (addend count key)).sum
        then (v + (l.map (addend count key)).sum, key) else (bv, bk)) := by
  induction l generalizing v bv bk with
  | nil => simp [Nat.not_lt.mpr hvb]
  | cons x l ih =>
    have hstep : scoreStep count key (v, bv, bk) x =
        (v + addend count key x,
          if bv < v + addend count key x then (v + addend count key x, key)
          else (bv, bk)) := by
      simp only [scoreStep, addend, ← Nat.add_assoc]
      split <;> rfl
    simp only [List.foldl_cons, List.map_cons, List.sum_cons, hstep]
    by_cases h1 : bv < v + addend count key x
    · rw [if_pos h1, ih _ _ _ (le_refl _)]
      split_ifs <;> simp only [Prod.mk.injEq, and_true] <;> omega
    · rw [if_neg h1, ih _ _ _ (Nat.le_of_not_lt h1)]
      split_ifs <;> simp only [Prod.mk.injEq, and_true] <;> omega

theorem scoreKey_eq (count : Hist) (st : Nat × Nat) (key : Nat) :
    scoreKey count st key =
      if st.1 < paraScore count key then (paraScore count key, key) else st := by
  obtain ⟨bv, bk⟩ := st
  simp only [scoreKey, paraScore,
    scoreStep_foldl count key (List.range 12) 0 bv bk (Nat.zero_le bv), Nat.zero_add]

/-- Invariant of the outer scoring loop, after the first `n` candidate keys:
the best value dominates every score seen so far; the best key either is the
untouched initial `(0, 0)` state or attains the best value with all earlier
keys scoring strictly less. -/
theorem findBestKey_inv (count : Hist) (n : Nat) :
    (∀ k < n, paraScore count k ≤ ((List.range n).foldl (scoreKey count) (0, 0)).1) ∧
    (((List.range n).foldl (scoreKey count) (0, 0)).2 = 0 ∧
        ((List.range n).foldl (scoreKey count) (0, 0)).1 = 0 ∨
      paraScore count ((List.range n).foldl (scoreKey count) (0, 0)).2 =
          ((List.range n).foldl (scoreKey count) (0, 0)).1 ∧
        ((List.range n).foldl (scoreKey count) (0, 0)).2 < n ∧
        0 < ((List.range n).foldl (scoreKey count) (0, 0)).1) ∧
    (∀ j < ((List.range n).foldl (scoreKey count) (0, 0)).2,
      paraScore count j < ((List.range n).foldl (scoreKey count) (0, 0)).1) := by
  induction n with
  | zero => simp
  | succ n ih =>
    obtain ⟨h1, h2, h3⟩ := ih
    rw [List.range_succ, List.foldl_append, List.foldl_cons, List.foldl_nil] at *
    rw [scoreKey_eq]
    split_ifs with hlt
    · refine ⟨?_, Or.inr ⟨rfl, Nat.lt_succ_self n, ?_⟩, ?_⟩
      · intro k hk
        rcases Nat.lt_succ_iff_lt_or_eq.mp hk with hk2 | rfl
        · exact le_of_lt (lt_of_le_of_lt (h1 k hk2) hlt)
        · exact le_refl _
      · exact Nat.lt_of_le_of_lt (Nat.zero_le _) hlt
      · intro j hj
        exact lt_of_le_of_lt (h1 j hj) hlt
    · refine ⟨?_, ?_, h3⟩
      · intro k hk
        rcases Nat.lt_succ_iff_lt_or_eq.mp hk with hk2 | rfl
        · exact h1 k hk2
        · exact Nat.le_of_not_lt hlt
      · rcases h2 with h2 | ⟨ha, hb, hc⟩
        · exact Or.inl h2
        · exact Or.inr ⟨ha, Nat.lt_succ_of_lt hb, hc⟩

theorem findBestKey_ge (count : Hist) {k : Nat} (hk : k < 12) :
    paraScore count k ≤ (findBestKey count).1 :=
  (findBestKey_inv count 12).1 k hk

theorem findBestKey_key_lt (count : Hist) : (findBestKey count).2 < 12 := by
  rcases (findBestKey_inv count 12).2.1 with ⟨h, _⟩ | ⟨_, h, _⟩
  · rw [show findBestKey count = (List.range 12).foldl (scoreKey count) (0, 0) from rfl] at *
    omega
  · exact h

theorem findBestKey_attained (count : Hist) :
    paraScore count (findBestKey count).2 = (findBestKey count).1 := by
  rcases (findBestKey_inv count 12).2.1 with ⟨h2, h1⟩ | ⟨h, _⟩
  · have h0 := (findBestKey_inv count 12).1 0 (by omega)
    rw [show findBestKey count = (List.range 12).foldl (scoreKey count) (0, 0) from rfl] at *
    rw [h2, h1]
    omega
  · exact h

theorem findBestKey_least (count : Hist) {j : Nat} (hj : j < (findBestKey count).2) :
    paraScore count j < (findBestKey count).1 :=
  (findBestKey_inv count 12).2.2 j hj

/-- A zero best value forces the untouched best key 0 (updates only happen on
a strict increase above the initial 0). -/
theorem val_zero_key_zero (h : Hist) (hv : (findBestKey h).1 = 0) :
    (findBestKey h).2 = 0 := by
  rcases (findBestKey_inv h 12).2.1 with ⟨h2, _⟩ | ⟨_, _, hc⟩
  · exact h2
  · rw [show findBestKey h = (List.range 12).foldl (scoreKey h) (0, 0) from rfl] at *
    omega

/-- C1: for every paragraph chord histogram the scoring loop returns a best
score equal to the maximum over candidate offsets 0..11 of the weighted total
(the score dominates every candidate and is attained at the returned offset),
and the returned offset is the smallest candidate attaining that maximum
(every smaller offset scores strictly less); the all-zero histogram yields
best offset 0 and best score 0.  `findBestKey` returns `(bestvalue, bestkey)`. -/
theorem C1_key_estimator (count : Hist) :
    (∀ k, k < 12 → paraScore count k ≤ (findBestKey count).1) ∧
    paraScore count (findBestKey count).2 = (findBestKey count).1 ∧
    (findBestKey count).2 < 12 ∧
    (∀ j, j < (findBestKey count).2 → paraScore count j < (findBestKey count).1) ∧
    findBestKey emptyHist = (0, 0) :=
  ⟨fun _ hk => findBestKey_ge count hk, findBestKey_attained count,
    findBestKey_key_lt count, fun _ hj => findBestKey_least count hj, by decide⟩

theorem C1_key_estimator_witness :
    (5 : Nat) < 12 ∧
      paraScore (bumpHist emptyHist 7 false) 5 ≤ (findBestKey (bumpHist emptyHist 7 false)).1 :=
  ⟨by decide, (C1_key_estimator (bumpHist emptyHist 7 false)).1 5 (by decide)⟩

/-! ## Lemmas about the semitone-step table and transposition -/

theorem alookup_mem {α : Type} [DecidableEq α] {β : Type} {m : List (α × β)} {k : α} {v : β}
    (h : alookup m k = some v) : (k, v) ∈ m := by
  induction m with
  | nil => simp [alookup] at h
  | cons p rest ih =>
    by_cases hp : p.1 = k
    · simp only [alookup, hp, if_pos] at h
      subst hp
      cases h
      left
    · simp only [alookup, hp, if_neg, if_false] at h
      exact List.mem_cons_of_mem _ (ih h)

theorem semitone_sound : ∀ p ∈ semitoneList,
    (map_transpose_semitone p.2).isSome = true ∧
    (chord_to_offset p.2).isSome = true ∧
    (chord_to_offset p.1).map (fun o => (o + 1) % 12) = chord_to_offset p.2 ∧
    p.2.getLast? ≠ some 'b' := by decide

theorem offset_lt_12 {s : List Char} {o : Nat} (h : chord_to_offset s = some o) : o < 12 := by
  have hm : (s, o) ∈ chordToOffsetList := alookup_mem h
  have hall : ∀ p ∈ chordToOffsetList, p.2 < 12 := by decide
  exact hall (s, o) hm

theorem semitone_step {s t : List Char} (h : map_transpose_semitone s = some t) :
    (map_transpose_semitone t).isSome = true ∧
    (chord_to_offset t).isSome = true ∧
    (chord_to_offset s).map (fun o => (o + 1) % 12) = chord_to_offset t ∧
    t.getLast? ≠ some 'b' :=
  semitone_sound (s, t) (alookup_mem h)

/-- Any spelling in the semitone-step table also has a pitch-class offset. -/
theorem semitone_domain_offset {s : List Char} (h : (map_transpose_semitone s).isSome = true) :
    (chord_to_offset s).isSome = true := by
  obtain ⟨t, ht⟩ := Option.isSome_iff_exists.mp h
  have hall : ∀ p ∈ semitoneList, (chord_to_offset p.1).isSome = true := by decide
  exact hall (s, t) (alookup_mem ht)

theorem transposeStep_nobass (c : Chord) {r : List Char}
    (hrr : map_transpose_semitone c.root = some r) (hcb : c.bass = none) :
    transposeStep c = some { c with root := r } := by
  simp [transposeStep, hrr, hcb]

theorem transposeStep_bass (c : Chord) {r b b2 : List Char}
    (hrr : map_transpose_semitone c.root = some r) (hcb : c.bass = some b)
    (hbb : map_transpose_semitone b = some b2) :
    transposeStep c = some { c with root := r, bass := some b2 } := by
  simp [transposeStep, hrr, hcb, hbb]

/-- Iterating `Chord.transpose`: for a chord whose root and bass spellings
are in the semitone table, transposition by any `n` succeeds, stays in the
table, advances both pitch-class offsets by `n` mod 12, and preserves the
other fields. -/
theorem transpose_good (n : Nat) (c : Chord)
    (hr : (map_transpose_semitone c.root).isSome = true)
    (hb : ∀ b, c.bass = some b → (map_transpose_semitone b).isSome = true) :
    ∃ c2, c.transpose n = some c2 ∧
      (map_transpose_semitone c2.root).isSome = true ∧
      (∀ b, c2.bass = some b → (map_transpose_semitone b).isSome = true) ∧
      chord_to_offset c2.root = (chord_to_offset c.root).map (fun o => (o + n) % 12) ∧
      bassOff c2 = (bassOff c).map (fun o => (o + n) % 12) ∧
      (c2.bass = none ↔ c.bass = none) ∧
      c2.opening_brace = c.opening_brace ∧ c2.triad = c.triad ∧
      c2.bassrest = c.bassrest ∧ c2.minor = c.minor := by
  induction n generalizing c with
  | zero =>
    obtain ⟨o, ho⟩ := Option.isSome_iff_exists.mp (semitone_domain_offset hr)
    have ho12 := offset_lt_12 ho
    refine ⟨c, rfl, hr, hb, ?_, ?_, Iff.rfl, rfl, rfl, rfl, rfl⟩
    · rw [ho]
      exact congrArg some (show o = (o + 0) % 12 by omega)
    · cases hcb : c.bass with
      | none =>
        have hbc : bassOff c = none := by
          unfold bassOff
          rw [hcb]
          rfl
        rw [hbc]
        rfl
      | some b =>
        obtain ⟨ob, hob⟩ := Option.isSome_iff_exists.mp
          (semitone_domain_offset (hb b hcb))
        have hob12 := offset_lt_12 hob
        have hbc : bassOff c = chord_to_offset b := by
          unfold bassOff
          rw [hcb]
          rfl
        rw [hbc, hob]
        exact congrArg some (show ob = (ob + 0) % 12 by omega)
  | succ n ih =>
    obtain ⟨r, hrr⟩ := Option.isSome_iff_exists.mp hr
    obtain ⟨hr2, _hro, hoff, _hfl⟩ := semitone_step hrr
    obtain ⟨o, ho⟩ := Option.isSome_iff_exists.mp (semitone_domain_offset hr)
    have ho12 := offset_lt_12 ho
    have hro : chord_to_offset r = some ((o + 1) % 12) := by
      rw [← hoff, ho]
      rfl
    cases hcb : c.bass with
    | none =>
      obtain ⟨c2, hc2, p1, p2, p3, p4, p5, p6, p7, p8, p9⟩ :=
        ih { c with root := r } hr2 (fun b hbb => by simp [hcb] at hbb)
      refine ⟨c2, ?_, p1, p2, ?_, ?_, p5.trans (by simp [hcb]), p6, p7, p8, p9⟩
      · show (transposeStep c).bind (fun d => d.transpose n) = some c2
        rw [transposeStep_nobass c hrr hcb]
        simpa using hc2
      · rw [p3, show ({ c with root := r } : Chord).root = r from rfl, hro, ho]
        exact congrArg some (show ((o + 1) % 12 + n) % 12 = (o + (n + 1)) % 12 by omega)
      · have h1 : bassOff { c with root := r } = none := by
          unfold bassOff
          rw [show ({ c with root := r } : Chord).bass = c.bass from rfl, hcb]
          rfl
        have h2 : bassOff c = none := by
          unfold bassOff
          rw [hcb]
          rfl
        rw [p4, h1, h2]
        rfl
    | some b =>
      obtain ⟨b2, hbb⟩ := Option.isSome_iff_exists.mp (hb b hcb)
      obtain ⟨hb2, _, hboff, _⟩ := semitone_step hbb
      obtain ⟨ob, hob⟩ := Option.isSome_iff_exists.mp (semitone_domain_offset (hb b hcb))
      have hob12 := offset_lt_12 hob
      have hbo : chord_to_offset b2 = some ((ob + 1) % 12) := by
        rw [← hboff, hob]
        rfl
      obtain ⟨c2, hc2, p1, p2, p3, p4, p5, p6, p7, p8, p9⟩ :=
        ih { c with root := r, bass := some b2 } hr2
          (fun x hx => by
            rw [show ({ c with root := r, bass := some b2 } : Chord).bass = some b2 from rfl]
              at hx
            cases hx
            exact hb2)
      refine ⟨c2, ?_, p1, p2, ?_, ?_, p5.trans (by simp [hcb]), p6, p7, p8, p9⟩
      · show (transposeStep c).bind (fun d => d.transpose n) = some c2
        rw [transposeStep_bass c hrr hcb hbb]
        simpa using hc2
      · rw [p3, show ({ c with root := r, bass := some b2 } : Chord).root = r from rfl,
          hro, ho]
        exact congrArg some (show ((o + 1) % 12 + n) % 12 = (o + (n + 1)) % 12 by omega)
      · have h1 : bassOff { c with root := r, bass := some b2 } = chord_to_offset b2 := by
          unfold bassOff
          rw [show ({ c with root := r, bass := some b2 } : Chord).bass = some b2 from rfl]
          rfl
        have h2 : bassOff c = chord_to_offset b := by
          unfold bassOff
          rw [hcb]
          rfl
        rw [p4, h1, h2, hbo, hob]
        exact congrArg some (show ((ob + 1) % 12 + n) % 12 = (ob + (n + 1)) % 12 by omega)

/-- C10 (amended): the semitone-step table is closed and offset-faithful —
each mapped spelling is itself a key of the step table and of the offset
table, its offset is the source offset plus one mod 12, and it is never a
flat spelling; consequently `Transpose(n)`, for any `n ≥ 0`, on a parsed
chord *whose root and bass spellings lie in the step table's domain* keeps
root and bass valid pitch-class spellings, raises no table-lookup error, and
advances each offset by exactly `n` mod 12. -/
theorem C10_step_table_closed :
    (∀ p ∈ semitoneList,
      (map_transpose_semitone p.2).isSome = true ∧
      (chord_to_offset p.2).isSome = true ∧
      (chord_to_offset p.1).map (fun o => (o + 1) % 12) = chord_to_offset p.2 ∧
      p.2.getLast? ≠ some 'b') ∧
    (∀ (c : Chord) (n : Nat),
      (map_transpose_semitone c.root).isSome = true →
      (∀ b, c.bass = some b → (map_transpose_semitone b).isSome = true) →
      ∃ c2, c.transpose n = some c2 ∧
        (map_transpose_semitone c2.root).isSome = true ∧
        (chord_to_offset c2.root).isSome = true ∧
        chord_to_offset c2.root = (chord_to_offset c.root).map (fun o => (o + n) % 12) ∧
        bassOff c2 = (bassOff c).map (fun o => (o + n) % 12)) :=
  ⟨semitone_sound, fun c n hr hb => by
    obtain ⟨c2, h1, h2, _h3, h4, h5, _⟩ := transpose_good n c hr hb
    exact ⟨c2, h1, h2, semitone_domain_offset h2, h4, h5⟩⟩

theorem C10_step_table_closed_witness :
    ∃ c2, (⟨false, ['C'], none, some ['G'], none, false⟩ : Chord).transpose 3 = some c2 ∧
      (map_transpose_semitone c2.root).isSome = true ∧
      (chord_to_offset c2.root).isSome = true ∧
      chord_to_offset c2.root =
        (chord_to_offset (⟨false, ['C'], none, some ['G'], none, false⟩ : Chord).root).map
          (fun o => (o + 3) % 12) ∧
      bassOff c2 =
        (bassOff ⟨false, ['C'], none, some ['G'], none, false⟩).map (fun o => (o + 3) % 12) :=
  C10_step_table_closed.2 ⟨false, ['C'], none, some ['G'], none, false⟩ 3 (by decide)
    (fun b hb => by cases hb; decide)

/-- C10 counterexample: the token `Cb` is accepted by the parser, yet
transposing the parsed chord by 1 hits a KeyError — its root spelling is not
in the semitone-step table — so the claim's consequence does not hold for
every parsed chord. -/
theorem C10_counterexample :
    parseChord ['C', 'b'] ≠ none ∧
    (parseChord ['C', 'b']).bind (fun c => c.transpose 1) = none := by decide

/-- C5 (amended): for every parsed chord whose root and bass spellings lie
in the semitone-step table and all `a, b ≥ 0`, transposing by `a` and then
by `b` and transposing the original chord once by `(a + b) mod 12` both
succeed and yield the same root and bass pitch-class offsets. -/
theorem C5_transpose_additive (c : Chord) (a b : Nat)
    (hr : (map_transpose_semitone c.root).isSome = true)
    (hb : ∀ x, c.bass = some x → (map_transpose_semitone x).isSome = true) :
    ∃ c1 c2, (c.transpose a).bind (fun d => d.transpose b) = some c1 ∧
      c.transpose ((a + b) % 12) = some c2 ∧
      chord_to_offset c1.root = chord_to_offset c2.root ∧
      (chord_to_offset c1.root).isSome = true ∧
      bassOff c1 = bassOff c2 ∧ (c1.bass = none ↔ c2.bass = none) := by
  obtain ⟨ca, ha, ha2, ha3, ha4, ha5, ha6, _⟩ := transpose_good a c hr hb
  obtain ⟨c1, hb1, hb2, _, hb4, hb5, hb6, _⟩ := transpose_good b ca ha2 ha3
  obtain ⟨c2, hc1, _hc2, _, hc4, hc5, hc6, _⟩ := transpose_good ((a + b) % 12) c hr hb
  refine ⟨c1, c2, ?_, hc1, ?_, semitone_domain_offset hb2, ?_, hb6.trans (ha6.trans hc6.symm)⟩
  · rw [ha]
    simpa using hb1
  · rw [hb4, ha4, hc4]
    obtain ⟨o, ho⟩ := Option.isSome_iff_exists.mp (semitone_domain_offset hr)
    rw [ho]
    exact congrArg some (show ((o + a) % 12 + b) % 12 = (o + (a + b) % 12) % 12 by omega)
  · rw [hb5, ha5, hc5]
    cases hbo : bassOff c with
    | none => rfl
    | some ob =>
      exact congrArg some (show ((ob + a) % 12 + b) % 12 = (ob + (a + b) % 12) % 12 by omega)

theorem C5_transpose_additive_witness :
    ∃ c1 c2,
      ((⟨false, ['D', 'b'], some ['m'], none, none, true⟩ : Chord).transpose 7).bind
        (fun d => d.transpose 8) = some c1 ∧
      (⟨false, ['D', 'b'], some ['m'], none, none, true⟩ : Chord).transpose ((7 + 8) % 12) =
        some c2 ∧
      chord_to_offset c1.root = chord_to_offset c2.root ∧
      (chord_to_offset c1.root).isSome = true ∧
      bassOff c1 = bassOff c2 ∧ (c1.bass = none ↔ c2.bass = none) :=
  C5_transpose_additive ⟨false, ['D', 'b'], some ['m'], none, none, true⟩ 7 8 (by decide)
    (fun x hx => by cases hx)

/-- C5 counterexample: for the parsed chord `Cb` and `a = 12`, `b = 0`,
transposing by `a` and then by `b` raises a KeyError, while transposing once
by `(a + b) mod 12 = 0` succeeds and returns the chord unchanged, so the two
runs cannot yield the same pitch classes. -/
theorem C5_counterexample :
    parseChord ['C', 'b'] ≠ none ∧
    (parseChord ['C', 'b']).bind (fun c => (c.transpose 12).bind (fun d => d.transpose 0)) =
      none ∧
    (parseChord ['C', 'b']).bind (fun c => c.transpose ((12 + 0) % 12)) =
      parseChord ['C', 'b'] := by decide

/-! ## Lemmas about the chord parser and serializer -/

theorem char_toNat_inj {c d : Char} (h : c.toNat = d.toNat) : c = d :=
  Char.eq_of_val_eq (UInt32.toNat.inj h)

theorem rootLetter_char_mem {c : Char} (h : isRootLetter c = true) :
    c ∈ (['A', 'B', 'C', 'D', 'E', 'F', 'G',
          'a', 'b', 'c', 'd', 'e', 'f', 'g'] : List Char) := by
  have hc : c = Char.ofNat c.toNat := (Char.ofNat_toNat c).symm
  simp only [isRootLetter, Bool.or_eq_true, Bool.and_eq_true, decide_eq_true_eq] at h
  rcases h with ⟨h1, h2⟩ | ⟨h1, h2⟩
  · have h1 : (65 : Nat) ≤ c.toNat := h1
    have h2 : c.toNat ≤ 71 := h2
    interval_cases h : c.toNat <;> rw [hc] <;> decide
  · have h1 : (97 : Nat) ≤ c.toNat := h1
    have h2 : c.toNat ≤ 103 := h2
    interval_cases h : c.toNat <;> rw [hc] <;> decide

theorem accidental_cases {a : Char} (h : isAccidentalChar a = true) : a = 'b' ∨ a = '#' := by
  simpa only [isAccidentalChar, Bool.or_eq_true, decide_eq_true_eq] using h

theorem rootLetter_toUpper_facts {c : Char} (h : isRootLetter c = true) :
    isRootLetter c.toUpper = true ∧ c.toUpper.toUpper = c.toUpper ∧
    c.toUpper ≠ '(' ∧ isAccidentalChar c.toUpper = false := by
  have hm := rootLetter_char_mem h
  fin_cases hm <;> exact ⟨by decide, by decide, by decide, by decide⟩

theorem accidental_toLower {a : Char} (h : isAccidentalChar a = true) : a.toLower = a := by
  rcases accidental_cases h with rfl | rfl <;> decide

/-- Capitalising a root-shaped spelling keeps its shape, and doing it twice
is the same as doing it once. -/
theorem goodRoot_capitalize {l : List Char} (hg : goodRoot l) :
    goodRoot (capitalize l) ∧ capitalize (capitalize l) = capitalize l ∧
    (capitalize l).length = l.length := by
  rcases hg with ⟨c, rfl, hc⟩ | ⟨c, a, rfl, hc, ha⟩
  · obtain ⟨f1, f2, _, _⟩ := rootLetter_toUpper_facts hc
    exact ⟨Or.inl ⟨c.toUpper, rfl, f1⟩, by simp [capitalize, f2], rfl⟩
  · obtain ⟨f1, f2, _, _⟩ := rootLetter_toUpper_facts hc
    have h3 := accidental_toLower ha
    refine ⟨Or.inr ⟨c.toUpper, a.toLower, by simp [capitalize], f1, by rw [h3]; exact ha⟩,
      ?_, rfl⟩
    simp [capitalize, f2, h3]

theorem parseRoot_decomp {s root t : List Char} (h : parseRoot s = some (root, t)) :
    s = root ++ t ∧ goodRoot root ∧ (root.length = 1 → accHead t = false) := by
  cases s with
  | nil => simp [parseRoot] at h
  | cons c r =>
    cases r with
    | nil =>
      simp only [parseRoot] at h
      by_cases hc : isRootLetter c = true
      · rw [if_pos hc] at h
        cases h
        exact ⟨rfl, Or.inl ⟨c, rfl, hc⟩, fun _ => rfl⟩
      · rw [if_neg hc] at h
        cases h
    | cons a r2 =>
      simp only [parseRoot] at h
      by_cases hc : isRootLetter c = true
      · rw [if_pos hc] at h
        by_cases ha : isAccidentalChar a = true
        · rw [if_pos ha] at h
          cases h
          refine ⟨rfl, Or.inr ⟨c, a, rfl, hc, ha⟩, fun hl => ?_⟩
          simp at hl
        · rw [if_neg ha] at h
          cases h
          refine ⟨rfl, Or.inl ⟨c, rfl, hc⟩, fun _ => ?_⟩
          show isAccidentalChar a = false
          simpa using ha
      · rw [if_neg hc] at h
        cases h

theorem parseRoot_prepend {root t : List Char} (hg : goodRoot root)
    (ht : root.length = 1 → accHead t = false) :
    parseRoot (root ++ t) = some (root, t) := by
  rcases hg with ⟨c, rfl, hc⟩ | ⟨c, a, rfl, hc, ha⟩
  · cases t with
    | nil => simp [parseRoot, hc]
    | cons a r2 =>
      have haf : isAccidentalChar a = false := by
        simpa [accHead] using ht rfl
      simp [parseRoot, hc, haf]
  · simp [parseRoot, hc, ha]

theorem parseParen_eq (s : List Char) :
    s = (if (parseParen s).1 then ['('] else []) ++ (parseParen s).2 := by
  cases s with
  | nil => rfl
  | cons c r =>
    by_cases h : c = '('
    · subst h
      simp [parseParen]
    · simp [parseParen, h]

theorem parseParen_opening (r : List Char) : parseParen ('(' :: r) = (true, r) := by
  simp [parseParen]

theorem parseParen_not {c : Char} (r : List Char) (h : c ≠ '(') :
    parseParen (c :: r) = (false, c :: r) := by
  simp [parseParen, h]

theorem dropWhile_head_slash {s2 : List Char} {y : Char} {t : List Char}
    (h : s2.dropWhile notSlash = y :: t) : y = '/' := by
  induction s2 with
  | nil => simp at h
  | cons x r ih =>
    rw [List.dropWhile_cons] at h
    by_cases hx : x = '/'
    · subst hx
      rw [show notSlash '/' = false from by decide] at h
      simp only [Bool.false_eq_true, if_false] at h
      exact (List.cons.injEq .. ▸ h).1.symm
    · rw [show notSlash x = true from by simp [notSlash, hx]] at h
      simp only [if_true] at h
      exact ih h

theorem accHead_takeWhile {p : Char → Bool} {s : List Char} (h : accHead s = false) :
    accHead (s.takeWhile p) = false := by
  cases s with
  | nil => rfl
  | cons x r =>
    rw [List.takeWhile_cons]
    by_cases hx : p x = true
    · simpa [hx] using h
    · simp [hx, accHead]

theorem takeWhile_append_all {p : Char → Bool} {A : List Char} (B : List Char)
    (h : ∀ x ∈ A, p x = true) : (A ++ B).takeWhile p = A ++ B.takeWhile p := by
  induction A with
  | nil => rfl
  | cons a A ih =>
    have ha := h a (by left)
    simp only [List.cons_append, List.takeWhile_cons, ha, if_true]
    rw [ih (fun x hx => h x (by right; exact hx))]

theorem dropWhile_append_all {p : Char → Bool} {A : List Char} (B : List Char)
    (h : ∀ x ∈ A, p x = true) : (A ++ B).dropWhile p = B.dropWhile p := by
  induction A with
  | nil => rfl
  | cons a A ih =>
    have ha := h a (by left)
    simp only [List.cons_append, List.dropWhile_cons, ha, if_true]
    exact ih (fun x hx => h x (by right; exact hx))

theorem parseBassOpt_spec (s4 : List Char) :
    s4 = (parseBassOpt s4).1 ++ (parseBassOpt s4).2 ∧
    ((parseBassOpt s4).1 = [] ∨ goodRoot (parseBassOpt s4).1) ∧
    ((parseBassOpt s4).1.length = 1 → accHead (parseBassOpt s4).2 = false) := by
  cases hpb : parseRoot s4 with
  | none =>
    rw [show parseBassOpt s4 = ([], s4) from by simp [parseBassOpt, hpb]]
    exact ⟨rfl, Or.inl rfl, fun hl => by simp at hl⟩
  | some bt =>
    obtain ⟨b, u⟩ := bt
    obtain ⟨hd, hg, hl⟩ := parseRoot_decomp hpb
    rw [show parseBassOpt s4 = (b, u) from by simp [parseBassOpt, hpb]]
    exact ⟨hd, Or.inr hg, hl⟩

/-- Everything the regex match guarantees about the raw capture groups:
the decomposition of the input, the shapes of root and bass, the greedy
tightness of the root and bass accidentals, the absence of `/` in the triad,
and the emptiness of bass and tail when no slash was consumed. -/
theorem parseRaw_spec {s : List Char} {r : RawChord} (h : parseRaw s = some r) :
    s = (if r.opening then ['('] else []) ++ r.rootRaw ++ r.triadRaw ++
        (if r.slash then ['/'] else []) ++ r.bassRaw ++ r.restRaw ∧
    goodRoot r.rootRaw ∧
    (r.rootRaw.length = 1 → accHead r.triadRaw = false) ∧
    (∀ x ∈ r.triadRaw, notSlash x = true) ∧
    (r.slash = false → r.bassRaw = [] ∧ r.restRaw = []) ∧
    (r.bassRaw = [] ∨ goodRoot r.bassRaw) ∧
    (r.bassRaw.length = 1 → accHead r.restRaw = false) := by
  have hop := parseParen_eq s
  simp only [parseRaw] at h
  split at h
  · cases h
  rename_i rs hpr
  obtain ⟨root, s2⟩ := rs
  obtain ⟨hd, hg, hrt⟩ := parseRoot_decomp hpr
  have hsplit := List.takeWhile_append_dropWhile (p := notSlash) (l := s2)
  split at h
  · rename_i hdw
    have hdw2 : List.dropWhile notSlash s2 = [] := hdw
    cases h
    refine ⟨?_, hg, fun hl => accHead_takeWhile (hrt hl),
      fun x hx => List.mem_takeWhile_imp hx, fun _ => ⟨rfl, rfl⟩,
      Or.inl rfl, fun hl => by simp at hl⟩
    conv_lhs => rw [hop, hd, ← hsplit, hdw2]
    simp
  · rename_i y s4 hdw
    have hdw2 : List.dropWhile notSlash s2 = y :: s4 := hdw
    cases h
    have hy := dropWhile_head_slash hdw2
    subst hy
    obtain ⟨hbd, hbg, hbt⟩ := parseBassOpt_spec s4
    refine ⟨?_, hg, fun hl => accHead_takeWhile (hrt hl),
      fun x hx => List.mem_takeWhile_imp hx, by simp,
      hbg, hbt⟩
    conv_lhs => rw [hop, hd, ← hsplit, hdw2, hbd]
    simp

/-- Serialization shape of a parsed chord: the exact bytes that
`Chord.chord()` produces from the raw groups. -/
theorem mkChord_chord {r : RawChord}
    (hsf : r.slash = false → r.bassRaw = [] ∧ r.restRaw = [])
    (hbs : r.slash = true → r.bassRaw ≠ []) :
    (mkChord r).chord =
      (if r.opening then ['('] else []) ++ capitalize r.rootRaw ++ r.triadRaw ++
      (if r.slash then ['/'] else []) ++ capitalize r.bassRaw ++ r.restRaw := by
  obtain ⟨op, root, triad, slash, bass, rest⟩ := r
  cases slash with
  | false =>
    obtain ⟨hb, hr⟩ := hsf rfl
    subst hb
    subst hr
    by_cases htr : triad = [] <;>
      simp [mkChord, Chord.chord, htr, capitalize]
  | true =>
    have hb := hbs rfl
    by_cases htr : triad = [] <;> by_cases hrr : rest = [] <;>
      simp [mkChord, Chord.chord, htr, hb, hrr, capitalize]

theorem capitalize_nil : capitalize ([] : List Char) = [] := rfl

theorem capitalize_nonempty {l : List Char} (h : l ≠ []) : capitalize l ≠ [] := by
  cases l with
  | nil => exact absurd rfl h
  | cons c r => simp [capitalize]

/-- Re-capitalising the already capitalised groups changes nothing in the
constructed `Chord`. -/
theorem mkChord_capitalize {r : RawChord} (hg : goodRoot r.rootRaw)
    (hbg : r.bassRaw = [] ∨ goodRoot r.bassRaw) :
    mkChord ⟨r.opening, capitalize r.rootRaw, r.triadRaw, r.slash, capitalize r.bassRaw,
      r.restRaw⟩ = mkChord r := by
  obtain ⟨_, hid, _⟩ := goodRoot_capitalize hg
  rcases hbg with hb | hb
  · simp [mkChord, hid, hb, capitalize_nil]
  · obtain ⟨_, hbid, _⟩ := goodRoot_capitalize hb
    have hbne : r.bassRaw ≠ [] := by
      rcases hb with ⟨c, hc, _⟩ | ⟨c, a, hc, _, _⟩ <;> simp [hc]
    have hcne := capitalize_nonempty hbne
    simp [mkChord, hid, hbid, hbne, hcne]

/-- Head start of the serialized token when there is no opening paren. -/
theorem goodRoot_head_shape {l : List Char} (hg : goodRoot l) :
    ∃ c u, capitalize l = c.toUpper :: u ∧ isRootLetter c = true := by
  rcases hg with ⟨c, hc, h⟩ | ⟨c, a, hc, h, _⟩
  · exact ⟨c, [], by simp [hc, capitalize], h⟩
  · exact ⟨c, [a.toLower], by simp [hc, capitalize], h⟩

/-- Reparsing the serialized chord recovers the same groups with root and
bass capitalised (given that the original match did not consume a dangling
slash with an empty bass group). -/
theorem parseRaw_serialize {s : List Char} {r : RawChord} (h : parseRaw s = some r)
    (hbs : r.slash = true → r.bassRaw ≠ []) :
    parseRaw ((mkChord r).chord) =
      some ⟨r.opening, capitalize r.rootRaw, r.triadRaw, r.slash, capitalize r.bassRaw,
        r.restRaw⟩ := by
  obtain ⟨_hd, hg, hrt, htr, hsf, hbg, hbt⟩ := parseRaw_spec h
  obtain ⟨hg2, _hid, hlen⟩ := goodRoot_capitalize hg
  obtain ⟨c, u, hcap, hcl⟩ := goodRoot_head_shape hg
  obtain ⟨_, _, hnp, _⟩ := rootLetter_toUpper_facts hcl
  rw [mkChord_chord hsf hbs]
  have htk0 : r.triadRaw.takeWhile notSlash = r.triadRaw := by
    have h0 := takeWhile_append_all (p := notSlash) [] htr
    simpa using h0
  have hdr0 : r.triadRaw.dropWhile notSlash = [] := by
    have h0 := dropWhile_append_all (p := notSlash) [] htr
    simpa using h0
  cases hsl : r.slash with
  | false =>
    obtain ⟨hb0, hr0⟩ := hsf hsl
    have hser : (if r.opening then ['('] else []) ++ capitalize r.rootRaw ++ r.triadRaw ++
        (if false then ['/'] else []) ++ capitalize r.bassRaw ++ r.restRaw =
        (if r.opening then ['('] else []) ++ (capitalize r.rootRaw ++ r.triadRaw) := by
      rw [hb0, hr0, capitalize_nil]
      simp
    rw [hser]
    have hparen : parseParen ((if r.opening then ['('] else []) ++
        (capitalize r.rootRaw ++ r.triadRaw)) =
        (r.opening, capitalize r.rootRaw ++ r.triadRaw) := by
      cases hoc : r.opening with
      | true => simp [parseParen]
      | false =>
        rw [hcap]
        simp [parseParen, hnp]
    have hroot : parseRoot (capitalize r.rootRaw ++ r.triadRaw) =
        some (capitalize r.rootRaw, r.triadRaw) := by
      refine parseRoot_prepend hg2 (fun hl => ?_)
      exact hrt (by omega)
    simp only [parseRaw, hparen, hroot, htk0, hdr0]
    rw [hb0, hr0, capitalize_nil]
  | true =>
    have hbne := hbs hsl
    have hbgr : goodRoot r.bassRaw := by
      rcases hbg with hb0 | hb0
      · exact absurd hb0 hbne
      · exact hb0
    obtain ⟨hbg2, _, hblen⟩ := goodRoot_capitalize hbgr
    have hser : (if r.opening then ['('] else []) ++ capitalize r.rootRaw ++ r.triadRaw ++
        (if true then ['/'] else []) ++ capitalize r.bassRaw ++ r.restRaw =
        (if r.opening then ['('] else []) ++ (capitalize r.rootRaw ++
          (r.triadRaw ++ ('/' :: (capitalize r.bassRaw ++ r.restRaw)))) := by
      simp
    rw [hser]
    have hparen : parseParen ((if r.opening then ['('] else []) ++
        (capitalize r.rootRaw ++ (r.triadRaw ++ ('/' :: (capitalize r.bassRaw ++
          r.restRaw))))) =
        (r.opening, capitalize r.rootRaw ++ (r.triadRaw ++ ('/' :: (capitalize r.bassRaw ++
          r.restRaw)))) := by
      cases hoc : r.opening with
      | true => simp [parseParen]
      | false =>
        rw [hcap]
        simp [parseParen, hnp]
    have haccT : (capitalize r.rootRaw).length = 1 →
        accHead (r.triadRaw ++ ('/' :: (capitalize r.bassRaw ++ r.restRaw))) = false := by
      intro hl
      have h1 : accHead r.triadRaw = false := hrt (by omega)
      cases htc : r.triadRaw with
      | nil => rfl
      | cons a l2 =>
        rw [htc] at h1
        simpa [accHead] using h1
    have hroot : parseRoot (capitalize r.rootRaw ++
        (r.triadRaw ++ ('/' :: (capitalize r.bassRaw ++ r.restRaw)))) =
        some (capitalize r.rootRaw,
          r.triadRaw ++ ('/' :: (capitalize r.bassRaw ++ r.restRaw))) :=
      parseRoot_prepend hg2 haccT
    have htk : (r.triadRaw ++ ('/' :: (capitalize r.bassRaw ++ r.restRaw))).takeWhile
        notSlash = r.triadRaw := by
      rw [takeWhile_append_all _ htr]
      rw [show (('/' :: (capitalize r.bassRaw ++ r.restRaw)).takeWhile notSlash) = [] from by
        rw [List.takeWhile_cons]
        simp [notSlash]]
      simp
    have hdr : (r.triadRaw ++ ('/' :: (capitalize r.bassRaw ++ r.restRaw))).dropWhile
        notSlash = '/' :: (capitalize r.bassRaw ++ r.restRaw) := by
      rw [dropWhile_append_all _ htr, List.dropWhile_cons]
      simp [notSlash]
    have hbass : parseBassOpt (capitalize r.bassRaw ++ r.restRaw) =
        (capitalize r.bassRaw, r.restRaw) := by
      rw [parseBassOpt, parseRoot_prepend hbg2 (fun hl => hbt (by omega))]
    simp only [parseRaw, hparen, hroot, htk, hdr, hbass]

/-- C2 (amended): for every chord token accepted by Parse in which the
optional slash, when consumed, is followed by a nonempty bass group,
serialization reproduces the token byte for byte except that root and bass
are capitalised, and reparsing the serialized token yields exactly the same
root, quality suffix, bass, trailing annotation, opening-paren flag and
minor flag as parsing the token directly. -/
theorem C2_round_trip {t : List Char} {r : RawChord} (h : parseRaw t = some r)
    (hbs : r.slash = true → r.bassRaw ≠ []) :
    parseChord t = some (mkChord r) ∧
    parseChord ((mkChord r).chord) = parseChord t ∧
    (mkChord r).chord =
      (if r.opening then ['('] else []) ++ capitalize r.rootRaw ++ r.triadRaw ++
      (if r.slash then ['/'] else []) ++ capitalize r.bassRaw ++ r.restRaw ∧
    t = (if r.opening then ['('] else []) ++ r.rootRaw ++ r.triadRaw ++
      (if r.slash then ['/'] else []) ++ r.bassRaw ++ r.restRaw := by
  obtain ⟨hd, hg, _, _, hsf, hbg, _⟩ := parseRaw_spec h
  refine ⟨by rw [parseChord, h, Option.map_some'], ?_, mkChord_chord hsf hbs, hd⟩
  rw [parseChord, parseRaw_serialize h hbs, Option.map_some',
    mkChord_capitalize hg hbg, parseChord, h, Option.map_some']

theorem C2_round_trip_witness :
    parseChord ['C', '#', 'm', '7', '/', 'g', '#'] =
      some (mkChord ⟨false, ['C', '#'], ['m', '7'], true, ['g', '#'], []⟩) ∧
    parseChord ((mkChord ⟨false, ['C', '#'], ['m', '7'], true, ['g', '#'], []⟩).chord) =
      parseChord ['C', '#', 'm', '7', '/', 'g', '#'] ∧
    (mkChord ⟨false, ['C', '#'], ['m', '7'], true, ['g', '#'], []⟩).chord =
      (if false then ['('] else []) ++ capitalize ['C', '#'] ++ ['m', '7'] ++
      (if true then ['/'] else []) ++ capitalize ['g', '#'] ++ [] ∧
    (['C', '#', 'm', '7', '/', 'g', '#'] : List Char) =
      (if false then ['('] else []) ++ ['C', '#'] ++ ['m', '7'] ++
      (if true then ['/'] else []) ++ ['g', '#'] ++ [] :=
  C2_round_trip (by decide) (fun _ => by decide)

/-- C2 counterexample: the token `C/9` is accepted by Parse, but the slash
is matched with an empty bass group and serialization drops it: the
serialized form is `C9`, which differs from `C/9` by a deleted `/` rather
than by capitalisation, and reparsing it gives a different quality suffix
(`9` as triad instead of `9` as trailing annotation). -/
theorem C2_counterexample :
    (parseChord ['C', '/', '9']).map Chord.chord = some ['C', '9'] ∧
    parseChord ['C', '9'] ≠ parseChord ['C', '/', '9'] := by decide

/-! ## Lemmas about the notation line splitter -/

theorem splitFirst_decomp {s : List Char} :
    ∀ {p b t : List Char}, splitFirst s = some (p, b, t) →
      s = p ++ '[' :: (b ++ ']' :: t) := by
  induction s with
  | nil => intro p b t h; simp [splitFirst] at h
  | cons c r ih =>
    intro p b t h
    simp only [splitFirst] at h
    by_cases hc : c = '['
    · rw [if_pos hc] at h
      subst hc
      split at h
      · rename_i tail heq
        have heq2 : r.dropWhile notCloseBracket = ']' :: tail := heq
        cases h
        simp only [List.nil_append, List.cons.injEq, true_and]
        rw [← heq2, List.takeWhile_append_dropWhile]
      · cases h
    · rw [if_neg hc] at h
      split at h
      · rename_i p2 b2 t2 heq
        have heq2 : splitFirst r = some (p2, b2, t2) := heq
        cases h
        rw [List.cons_append, ← ih heq2]
      · cases h

theorem splitFirst_shrink {s p b t : List Char} (h : splitFirst s = some (p, b, t)) :
    t.length < s.length := by
  have hd := congrArg List.length (splitFirst_decomp h)
  simp [List.length_append] at hd
  omega

theorem splitLineF_congr {f1 : Nat} : ∀ {s : List Char} {f2 : Nat}, s.length < f1 →
    s.length < f2 → splitLineF f1 s = splitLineF f2 s := by
  induction f1 with
  | zero => intro s f2 h1; omega
  | succ f1 ih =>
    intro s f2 h1 h2
    cases f2 with
    | zero => omega
    | succ f2 =>
      show (match splitFirst s with
            | none => [s]
            | some (p, b, t) => p :: b :: splitLineF f1 t) =
           (match splitFirst s with
            | none => [s]
            | some (p, b, t) => p :: b :: splitLineF f2 t)
      cases hsf : splitFirst s with
      | none => rfl
      | some pbt =>
        obtain ⟨p, b, t⟩ := pbt
        have hlt := splitFirst_shrink hsf
        show p :: b :: splitLineF f1 t = p :: b :: splitLineF f2 t
        rw [ih (show t.length < f1 by omega) (show t.length < f2 by omega)]

theorem splitLine_eq_nomatch {s : List Char} (h : splitFirst s = none) :
    splitLine s = [s] := by
  unfold splitLine
  show (match splitFirst s with
        | none => [s]
        | some (p, b, t) => p :: b :: splitLineF s.length t) = [s]
  rw [h]

theorem splitLineF_succ (fuel : Nat) (s : List Char) :
    splitLineF (fuel + 1) s =
      match splitFirst s with
      | none => [s]
      | some (p, b, t) => p :: b :: splitLineF fuel t := rfl

theorem splitLine_eq_match {s p b t : List Char} (h : splitFirst s = some (p, b, t)) :
    splitLine s = p :: b :: splitLine t := by
  have hlt := splitFirst_shrink h
  unfold splitLine
  rw [splitLineF_succ, h]
  show p :: b :: splitLineF s.length t = p :: b :: splitLineF (t.length + 1) t
  rw [@splitLineF_congr s.length t (t.length + 1) (show t.length < s.length by omega)
    (by omega)]

theorem splitLine_shape : ∀ (n : Nat) (s : List Char), s.length ≤ n →
    rejoinWithBrackets (splitLine s) = s ∧ splitLine s ≠ [] ∧
      (splitLine s).length % 2 = 1 := by
  intro n
  induction n with
  | zero =>
    intro s hs
    have hz : s = [] := List.length_eq_zero.mp (Nat.le_zero.mp hs)
    subst hz
    rw [splitLine_eq_nomatch (by rfl)]
    exact ⟨rfl, by simp, rfl⟩
  | succ n ih =>
    intro s hs
    cases hsf : splitFirst s with
    | none =>
      rw [splitLine_eq_nomatch hsf]
      exact ⟨rfl, by simp, rfl⟩
    | some pbt =>
      obtain ⟨p, b, t⟩ := pbt
      have hlt := splitFirst_shrink hsf
      obtain ⟨hr, hne, hodd⟩ := ih t (by omega)
      rw [splitLine_eq_match hsf]
      refine ⟨?_, by simp, by simp only [List.length_cons]; omega⟩
      rw [show rejoinWithBrackets (p :: b :: splitLine t) =
        p ++ '[' :: (b ++ ']' :: rejoinWithBrackets (splitLine t)) from rfl, hr]
      exact (splitFirst_decomp hsf).symm

/-- C9 (amended): for every input line the splitter returns a nonempty,
odd-length alternation of plain-text and chord segments in left-to-right
order, and reinserting a `[`/`]` pair around each chord segment reconstructs
the original line exactly (so joining the segments yields the line with the
matched bracket pairs removed).  An unterminated `[` produces no chord
segment: it remains, bracket included, inside a plain-text segment, and no
error is raised. -/
theorem C9_splitter (s : List Char) :
    rejoinWithBrackets (splitLine s) = s ∧ splitLine s ≠ [] ∧
      (splitLine s).length % 2 = 1 :=
  splitLine_shape s.length s (le_refl _)

theorem C9_splitter_witness :
    rejoinWithBrackets (splitLine ['x', '[', 'A', ']', 'y']) = ['x', '[', 'A', ']', 'y'] :=
  (C9_splitter ['x', '[', 'A', ']', 'y']).1

/-- C9 counterexample: the line `a[bc` contains an unterminated `[`, yet the
splitter returns a single plain-text segment still containing the bracket
and produces no chord segment at all, contradicting the claim that the `[`
consumes to end of line as a chord segment. -/
theorem C9_counterexample :
    splitLine ['a', '[', 'b', 'c'] = [['a', '[', 'b', 'c']] ∧
    chordsOf ['a', '[', 'b', 'c'] = [] := by decide

/-! ## Lemmas about the transposition path of parse_file -/

theorem chordsOf_nil {l : List Char} (h : chordsOf l = []) : splitLine l = [l] := by
  cases hsf : splitFirst l with
  | none => exact splitLine_eq_nomatch hsf
  | some pbt =>
    obtain ⟨p, b, t⟩ := pbt
    rw [chordsOf, splitLine_eq_match hsf] at h
    simp [oddSlots] at h

theorem countLine_nochords {h : Hist} {l : List Char} (hc : chordsOf l = []) :
    countLine h l = .ok h := by
  rw [countLine, hc]
  rfl

theorem countBlank_cons (line : List Char) (rest : List (List Char)) :
    countBlank (line :: rest) =
      (if isBlank line then 1 else 0) + countBlank rest := by
  unfold countBlank
  rw [List.filter_cons]
  by_cases hb : isBlank line = true <;> simp [hb] <;> omega

theorem pass1_nochords (text : List (List Char)) :
    ∀ (done : List Hist) (cur : Hist), (∀ l ∈ text, chordsOf l = []) →
      pass1go done cur text =
        .ok (done ++ cur :: List.replicate (countBlank text) emptyHist) := by
  induction text with
  | nil =>
    intro done cur _
    rw [show countBlank [] = 0 from rfl]
    rfl
  | cons line rest ih =>
    intro done cur h
    have hl := h line (by left)
    have hr : ∀ l ∈ rest, chordsOf l = [] := fun l hx => h l (by right; exact hx)
    rw [countBlank_cons]
    by_cases hb : isBlank line = true
    · have step : pass1go done cur (line :: rest) =
          pass1go (done ++ [cur]) emptyHist rest := by
        simp only [pass1go, hb, if_true, countLine_nochords hl]
      rw [step, ih _ _ hr]
      simp only [hb, if_true]
      rw [show (1 + countBlank rest) = countBlank rest + 1 from Nat.add_comm 1 _,
        List.replicate_succ]
      simp
    · have step : pass1go done cur (line :: rest) = pass1go done cur rest := by
        simp only [pass1go, hb, if_false, Bool.false_eq_true, countLine_nochords hl]
      rw [step, ih _ _ hr]
      simp [hb]

theorem keyOf_empty : keyOf emptyHist = (0, 0) := by decide

theorem computeShiftGo_cons (target : List Char) (k v : Nat) (rest : List (Nat × Nat))
    (fk : Option Nat) :
    computeShiftGo target ((k, v) :: rest) fk =
      (if 0 < v then
         match chord_to_offset target with
         | none => .error .keyError
         | some t =>
           .ok (some ((t + 12 - k % 12) % 12), if k ≠ 0 ∧ fk = none then some k else fk)
       else computeShiftGo target rest (if k ≠ 0 ∧ fk = none then some k else fk)) := rfl

theorem computeShiftGo_zeros (target : List Char) :
    ∀ (n : Nat) (fk : Option Nat),
      computeShiftGo target (List.replicate n (0, 0)) fk = .ok (none, fk) := by
  intro n
  induction n with
  | zero => intro fk; rfl
  | succ n ih =>
    intro fk
    rw [List.replicate_succ, computeShiftGo_cons]
    simp only [Nat.lt_irrefl, if_false, ne_eq, not_true_eq_false, false_and, ite_false]
    exact ih fk

theorem get?_replicate {α : Type} (a : α) : ∀ {n i : Nat}, i < n →
    (List.replicate n a).get? i = some a := by
  intro n
  induction n with
  | zero => intro i hi; omega
  | succ n ih =>
    intro i hi
    rw [List.replicate_succ]
    cases i with
    | zero => rfl
    | succ i => exact ih (by omega)

theorem keyChangeStep_zero (fk : Option Nat) (norm : Option Char) :
    keyChangeStep fk norm 0 = (fk, norm) := by
  unfold keyChangeStep
  simp

theorem rewriteLine_nochords (shift : Option Nat) (norm : Option Char) {l : List Char}
    (hc : chordsOf l = []) : rewriteLine shift norm l = .ok l := by
  rw [rewriteLine, chordsOf_nil hc]
  rfl

theorem pass3_nochords (m : Nat) (shift : Option Nat) (text : List (List Char)) :
    ∀ (idx : Nat) (fk : Option Nat) (norm : Option Char),
      (∀ l ∈ text, chordsOf l = []) → idx + countBlank text < m →
      pass3 (List.replicate m (0, 0)) shift idx fk norm text = .ok text := by
  induction text with
  | nil => intro idx fk norm _ _; rfl
  | cons line rest ih =>
    intro idx fk norm h hlt
    have hl := h line (by left)
    have hr : ∀ l ∈ rest, chordsOf l = [] := fun l hx => h l (by right; exact hx)
    rw [countBlank_cons] at hlt
    have hidx : idx < m := by
      by_cases hb : isBlank line = true <;> simp [hb] at hlt <;> omega
    by_cases hb : isBlank line = true
    · have hrec := ih (idx + 1) fk norm hr (by simp [hb] at hlt; omega)
      simp only [pass3, get?_replicate _ hidx, keyChangeStep_zero,
        rewriteLine_nochords shift norm hl, hb, if_true, hrec]
    · have hrec := ih idx fk norm hr (by simp [hb] at hlt; omega)
      simp only [pass3, get?_replicate _ hidx, keyChangeStep_zero,
        rewriteLine_nochords shift norm hl, hb, if_false, Bool.false_eq_true, hrec]

/-- C7 (amended): when transposition is requested and the document contains
no chord tokens at all, the transposer leaves the document unchanged and
terminates — for every target key except the literal strings `b` and `#`,
which crash with a TypeError in the norm lookup even for a chordless
document. -/
theorem C7_no_chords (target : List Char) (text : List (List Char))
    (h : ∀ l ∈ text, chordsOf l = []) (hb : target ≠ ['b']) (hs : target ≠ ['#']) :
    parse_file_transpose target text = .ok text := by
  have h1 : pass1 text = .ok (emptyHist :: List.replicate (countBlank text) emptyHist) := by
    rw [pass1, pass1_nochords text [] emptyHist h]
    rfl
  have hkeys : (emptyHist :: List.replicate (countBlank text) emptyHist).map keyOf =
      List.replicate (countBlank text + 1) ((0 : Nat), (0 : Nat)) := by
    rw [List.map_cons, List.map_replicate, keyOf_empty, List.replicate_succ]
  have hnorm : ∃ v, computeNorm target = .ok v := by
    rw [computeNorm, if_neg (not_or.mpr ⟨hb, hs⟩)]
    cases chord_to_offset target with
    | none => exact ⟨none, rfl⟩
    | some o => exact ⟨some (keyNormAt o), rfl⟩
  obtain ⟨v, hv⟩ := hnorm
  have hpre : prePass3 target text =
      .ok (List.replicate (countBlank text + 1) ((0 : Nat), (0 : Nat)), none, none, v) := by
    simp only [prePass3, h1, hkeys, computeShiftGo_zeros, hv]
  simp only [parse_file_transpose, hpre]
  exact pass3_nochords _ none text 0 none v h (by omega)

theorem C7_no_chords_witness :
    parse_file_transpose ['D'] [['h', 'i', '\n']] = .ok [['h', 'i', '\n']] :=
  C7_no_chords ['D'] [['h', 'i', '\n']] (by decide) (by decide) (by decide)

/-- C7 counterexample: with target key the literal string `b` and a
chordless document, the transposer raises a TypeError (a Python list indexed
with a string in the norm lookup) instead of returning the document
unchanged. -/
theorem C7_counterexample :
    parse_file_transpose ['b'] [['h', 'i', '\n']] = .error .typeError ∧
    parse_file_transpose ['b'] [['h', 'i', '\n']] ≠ .ok [['h', 'i', '\n']] := by decide

theorem countTok_chordError {h : Hist} {tok : List Char} (hpc : parseChord tok = none) :
    countTok h tok = .error .chordError := by
  simp only [countTok, hpc]

theorem countTok_ok {h : Hist} {tok : List Char}
    (hv : ((parseChord tok).all fun c => (chord_to_offset c.root).isSome) = true)
    (hs : (parseChord tok).isSome = true) : ∃ h2, countTok h tok = .ok h2 := by
  cases hpc : parseChord tok with
  | none => rw [hpc] at hs; cases hs
  | some c =>
    rw [hpc] at hv
    simp only [Option.all_some] at hv
    obtain ⟨o, ho⟩ := Option.isSome_iff_exists.mp hv
    exact ⟨bumpHist h o c.minor, by simp only [countTok, hpc, ho]⟩

theorem countToks_chordError {toks : List (List Char)} :
    ∀ {h : Hist}, (∃ tok ∈ toks, parseChord tok = none) →
      (∀ tok ∈ toks, ((parseChord tok).all fun c => (chord_to_offset c.root).isSome) = true) →
      countToks h toks = .error .chordError := by
  induction toks with
  | nil =>
    intro h hm _
    obtain ⟨tok, ht, _⟩ := hm
    cases ht
  | cons t rest ih =>
    intro h hm hv
    cases hpc : parseChord t with
    | none => simp only [countToks, countTok_chordError hpc]
    | some c =>
      obtain ⟨h2, hok⟩ := countTok_ok (hv t (by left)) (by rw [hpc]; rfl) (h := h)
      simp only [countToks, hok]
      apply ih
      · obtain ⟨tok, ht, htn⟩ := hm
        rcases List.mem_cons.mp ht with rfl | ht2
        · rw [hpc] at htn
          cases htn
        · exact ⟨tok, ht2, htn⟩
      · exact fun tok ht2 => hv tok (by right; exact ht2)

theorem countToks_ok {toks : List (List Char)} :
    ∀ {h : Hist}, (∀ tok ∈ toks, parseChord tok ≠ none) →
      (∀ tok ∈ toks, ((parseChord tok).all fun c => (chord_to_offset c.root).isSome) = true) →
      ∃ h2, countToks h toks = .ok h2 := by
  induction toks with
  | nil =>
    intro h _ _
    exact ⟨h, rfl⟩
  | cons t rest ih =>
    intro h hp hv
    obtain ⟨h2, hok⟩ := countTok_ok (hv t (by left))
      (Option.ne_none_iff_isSome.mp (hp t (by left))) (h := h)
    obtain ⟨h3, hok2⟩ := ih (fun tok ht => hp tok (by right; exact ht))
      (fun tok ht => hv tok (by right; exact ht)) (h := h2)
    exact ⟨h3, by simp only [countToks, hok, hok2]⟩

theorem countToks_ok_parse {toks : List (List Char)} :
    ∀ {h h2 : Hist}, countToks h toks = .ok h2 → ∀ tok ∈ toks, parseChord tok ≠ none := by
  induction toks with
  | nil =>
    intro h h2 _ tok ht
    cases ht
  | cons t rest ih =>
    intro h h2 hok tok ht
    unfold countToks at hok
    split at hok
    · cases hok
    · rename_i h3 heq
      rcases List.mem_cons.mp ht with rfl | ht2
      · intro hpc
        rw [countTok_chordError hpc] at heq
        cases heq
      · exact ih hok tok ht2

theorem pass1go_ok_parse {text : List (List Char)} :
    ∀ {done cur hists}, pass1go done cur text = .ok hists →
      ∀ l ∈ text, ∀ tok ∈ chordsOf l, parseChord tok ≠ none := by
  induction text with
  | nil =>
    intro _ _ _ _ l hl
    cases hl
  | cons line rest ih =>
    intro done cur hists hok l hl
    by_cases hb : isBlank line = true
    · simp only [pass1go, hb, if_true] at hok
      split at hok
      · cases hok
      · rename_i cur2 heq
        rcases List.mem_cons.mp hl with rfl | hl2
        · exact countToks_ok_parse heq
        · exact ih hok l hl2
    · simp only [pass1go, hb, if_false, Bool.false_eq_true] at hok
      split at hok
      · cases hok
      · rename_i cur2 heq
        rcases List.mem_cons.mp hl with rfl | hl2
        · exact countToks_ok_parse heq
        · exact ih hok l hl2

theorem pass1go_chordError {text : List (List Char)} :
    ∀ (done : List Hist) (cur : Hist),
      (∃ l ∈ text, ∃ tok ∈ chordsOf l, parseChord tok = none) →
      (∀ l ∈ text, ∀ tok ∈ chordsOf l,
        ((parseChord tok).all fun c => (chord_to_offset c.root).isSome) = true) →
      pass1go done cur text = .error .chordError := by
  induction text with
  | nil =>
    intro _ _ hm _
    obtain ⟨l, hl, _⟩ := hm
    cases hl
  | cons line rest ih =>
    intro done cur hm hv
    by_cases hline : ∃ tok ∈ chordsOf line, parseChord tok = none
    · have herr : ∀ h0 : Hist, countLine h0 line = .error .chordError := fun h0 =>
        countToks_chordError hline (hv line (by left))
      by_cases hb : isBlank line = true
      · simp only [pass1go, hb, if_true, herr]
      · simp only [pass1go, hb, if_false, Bool.false_eq_true, herr]
    · have hm2 : ∃ l ∈ rest, ∃ tok ∈ chordsOf l, parseChord tok = none := by
        obtain ⟨l, hl, tok, ht, hpc⟩ := hm
        rcases List.mem_cons.mp hl with rfl | hl2
        · exact absurd ⟨tok, ht, hpc⟩ hline
        · exact ⟨l, hl2, tok, ht, hpc⟩
      have hv2 : ∀ l ∈ rest, ∀ tok ∈ chordsOf l,
          ((parseChord tok).all fun c => (chord_to_offset c.root).isSome) = true :=
        fun l hl2 => hv l (by right; exact hl2)
      push_neg at hline
      by_cases hb : isBlank line = true
      · obtain ⟨cur2, hok⟩ := countToks_ok hline (hv line (by left)) (h := emptyHist)
        have hok2 : countLine emptyHist line = .ok cur2 := hok
        simp only [pass1go, hb, if_true, hok2]
        exact ih _ _ hm2 hv2
      · obtain ⟨cur2, hok⟩ := countToks_ok hline (hv line (by left)) (h := cur)
        have hok2 : countLine cur line = .ok cur2 := hok
        simp only [pass1go, hb, if_false, Bool.false_eq_true, hok2]
        exact ih _ _ hm2 hv2

theorem pass1_fails {text : List (List Char)}
    (hm : ∃ l ∈ text, ∃ tok ∈ chordsOf l, parseChord tok = none) :
    ∃ e, pass1 text = .error e := by
  cases hp : pass1 text with
  | error e => exact ⟨e, rfl⟩
  | ok hists =>
    obtain ⟨l, hl, tok, ht, hpc⟩ := hm
    exact absurd hpc (pass1go_ok_parse hp l hl tok ht)

/-- C6 (amended): a chord token whose root segment does not parse aborts
transposition of the whole document with an uncaught exception and no output
(not even partial) is produced; the escaping exception is the ChordError
itself whenever every token that does parse has a root spelling present in
the pitch-class table (otherwise an off-table root such as `Cb` raises a
KeyError first). -/
theorem C6_parse_abort (target : List Char) (text : List (List Char))
    (hm : ∃ l ∈ text, ∃ tok ∈ chordsOf l, parseChord tok = none) :
    (∃ e, parse_file_transpose target text = .error e) ∧
    ((∀ l ∈ text, ∀ tok ∈ chordsOf l,
        ((parseChord tok).all fun c => (chord_to_offset c.root).isSome) = true) →
      parse_file_transpose target text = .error .chordError) := by
  constructor
  · obtain ⟨e, he⟩ := pass1_fails hm
    refine ⟨e, ?_⟩
    simp only [parse_file_transpose, prePass3, he]
  · intro hv
    have he : pass1 text = .error .chordError := pass1go_chordError _ _ hm hv
    simp only [parse_file_transpose, prePass3, he]

theorem C6_parse_abort_witness :
    parse_file_transpose ['D'] [['[', '9', 'x', ']', 'a', '\n']] = .error .chordError :=
  (C6_parse_abort ['D'] [['[', '9', 'x', ']', 'a', '\n']] (by decide)).2 (by decide)

/-- C6 counterexample: in a document containing both `[Cb]` (a parseable
root missing from the pitch-class table) and the malformed token `[9]`, the
exception that propagates is a KeyError, not the claimed ChordError, though
transposition is still aborted with no output. -/
theorem C6_counterexample :
    parse_file_transpose ['D'] [['[', 'C', 'b', ']', 'a', ' ', '[', '9', ']', 'b', '\n']] =
      .error .keyError ∧
    (Except.error PyErr.keyError : Except PyErr (List (List Char))) ≠
      .error .chordError := by decide

theorem keyOf_val_zero {h : Hist} (hv : (keyOf h).2 = 0) : (keyOf h).1 = 0 :=
  val_zero_key_zero h hv

/-- C4 (amended): the shift is computed from the first paragraph with
nonzero confidence as `(targetOffset - firstConfidentOffset) mod 12`, and
paragraphs after it are not examined (zero-confidence paragraphs never
change the established key); however `first_key` is only assigned a
*nonzero* offset, so it is set to the first confident paragraph's offset
when that offset is nonzero and remains unset (`None`) when that offset is
0. -/
theorem C4_first_key (target : List Char) (t : Nat)
    (ht : chord_to_offset target = some t) (zs : List Hist) (h : Hist)
    (rest : List Hist) (hz : ∀ h0 ∈ zs, (keyOf h0).2 = 0) (hc : 0 < (keyOf h).2) :
    computeShiftGo target ((zs ++ h :: rest).map keyOf) none =
      .ok (some ((t + 12 - (keyOf h).1 % 12) % 12),
        if (keyOf h).1 = 0 then none else some (keyOf h).1) := by
  induction zs with
  | nil =>
    cases hkv : keyOf h with
    | mk k v =>
      rw [hkv] at hc
      simp only [List.nil_append, List.map_cons, hkv, computeShiftGo_cons, hc, if_true, ht]
      by_cases hk : k = 0
      · simp [hk]
      · simp [hk]
  | cons z zs ih =>
    have hz0 : (keyOf z).2 = 0 := hz z (by left)
    have hk0 : (keyOf z).1 = 0 := keyOf_val_zero hz0
    cases hkz : keyOf z with
    | mk kz vz =>
      rw [hkz] at hz0 hk0
      subst hz0
      subst hk0
      simp only [List.cons_append, List.map_cons, hkz, computeShiftGo_cons]
      simp only [Nat.lt_irrefl, if_false, ne_eq, not_true_eq_false, false_and, ite_false]
      exact ih (fun h0 hh => hz h0 (by right; exact hh))

theorem C4_first_key_witness :
    computeShiftGo ['D']
      (([emptyHist] ++ bumpHist (bumpHist emptyHist 7 false) 7 false :: []).map keyOf)
      none =
      .ok (some ((2 + 12 - (keyOf (bumpHist (bumpHist emptyHist 7 false) 7 false)).1 % 12)
          % 12),
        if (keyOf (bumpHist (bumpHist emptyHist 7 false) 7 false)).1 = 0 then none
        else some (keyOf (bumpHist (bumpHist emptyHist 7 false) 7 false)).1) :=
  C4_first_key ['D'] 2 (by decide) [emptyHist]
    (bumpHist (bumpHist emptyHist 7 false) 7 false) []
    (fun h0 hh => by
      rcases List.mem_singleton.mp hh with rfl
      decide)
    (by decide)

/-- C4 counterexample: a document whose only paragraph confidently estimates
key offset 0 (two C-major chords) leaves `first_key` as `None` rather than
binding it to 0, while the shift is still computed from offset 0; the claim
that `firstKey` is set "also when that offset is 0" fails. -/
theorem C4_counterexample :
    prePass3 ['D'] [['[', 'C', ']', 'x', ' ', '[', 'C', ']', 'y', '\n']] =
      .ok ([((0 : Nat), (4 : Nat))], some 2, none, some '#') ∧
    (some (2 : Nat), (none : Option Nat)) ≠ (some 2, some 0) := by decide

theorem sum_range_term_le {f : Nat → Nat} {i : Nat} :
    ∀ {n : Nat}, i < n → f i ≤ ((List.range n).map f).sum := by
  intro n
  induction n with
  | zero => omega
  | succ n ih =>
    intro hi
    rw [List.range_succ, List.map_append, List.sum_append]
    rcases Nat.lt_succ_iff_lt_or_eq.mp hi with hlt | rfl
    · exact le_trans (ih hlt) (Nat.le_add_right _ _)
    · simp

theorem sum_range_update {f g : Nat → Nat} {off : Nat} :
    ∀ {n : Nat}, off < n → (∀ i, i ≠ off → g i = f i) → g off = f off + 1 →
      ((List.range n).map g).sum = ((List.range n).map f).sum + 1 := by
  intro n
  induction n with
  | zero => omega
  | succ n ih =>
    intro hn hne hoff
    rw [List.range_succ, List.map_append, List.sum_append, List.map_append, List.sum_append]
    rcases Nat.lt_succ_iff_lt_or_eq.mp hn with hlt | rfl
    · simp only [List.map_cons, List.map_nil, List.sum_cons, List.sum_nil]
      rw [ih hlt hne hoff, hne n (by omega)]
      omega
    · have hpre : (List.range off).map g = (List.range off).map f := by
        apply List.map_congr_left
        intro x hx
        exact hne x (by simp at hx; omega)
      simp only [List.map_cons, List.map_nil, List.sum_cons, List.sum_nil]
      rw [hpre, hoff]
      omega

theorem mass_bump {h : Hist} {off : Nat} (m : Bool) (hoff : off < 12) :
    mass (bumpHist h off m) = mass h + 1 := by
  unfold mass
  refine sum_range_update hoff (fun i hi => ?_) ?_
  · show bumpHist h off m i false + bumpHist h off m i true = h i false + h i true
    unfold bumpHist
    rw [if_neg (by simp [hi]), if_neg (by simp [hi])]
  · show bumpHist h off m off false + bumpHist h off m off true = h off false + h off true + 1
    unfold bumpHist
    cases m
    · rw [if_pos (by simp), if_neg (by simp)]
      omega
    · rw [if_neg (by simp), if_pos (by simp)]
      omega

theorem countTok_mass {h h2 : Hist} {tok : List Char} (hok : countTok h tok = .ok h2) :
    mass h2 = mass h + 1 := by
  unfold countTok at hok
  split at hok
  · cases hok
  · rename_i c hpc
    split at hok
    · cases hok
    · rename_i off hoff
      cases hok
      exact mass_bump c.minor (offset_lt_12 hoff)

theorem countToks_mass {toks : List (List Char)} :
    ∀ {h h2 : Hist}, countToks h toks = .ok h2 → mass h + toks.length = mass h2 := by
  induction toks with
  | nil =>
    intro h h2 hok
    cases hok
    simp
  | cons t rest ih =>
    intro h h2 hok
    unfold countToks at hok
    split at hok
    · cases hok
    · rename_i h3 heq
      have h1 := countTok_mass heq
      have h2 := ih hok
      simp only [List.length_cons]
      omega

theorem pass1go_extends {text : List (List Char)} :
    ∀ {done : List Hist} {cur : Hist} {hists : List Hist},
      pass1go done cur text = .ok hists → ∃ u, hists = done ++ u := by
  induction text with
  | nil =>
    intro done cur hists hok
    cases hok
    exact ⟨[cur], rfl⟩
  | cons line rest ih =>
    intro done cur hists hok
    by_cases hb : isBlank line = true
    · simp only [pass1go, hb, if_true] at hok
      split at hok
      · cases hok
      · rename_i cur2 heq
        obtain ⟨u, hu⟩ := ih hok
        exact ⟨[cur] ++ u, by rw [hu, List.append_assoc]⟩
    · simp only [pass1go, hb, if_false, Bool.false_eq_true] at hok
      split at hok
      · cases hok
      · rename_i cur2 heq
        exact ih hok

theorem pass1go_mass_le {text : List (List Char)} :
    ∀ {done : List Hist} {cur : Hist} {hists : List Hist},
      pass1go done cur text = .ok hists → ∃ h ∈ hists, mass cur ≤ mass h := by
  induction text with
  | nil =>
    intro done cur hists hok
    cases hok
    exact ⟨cur, by simp, le_refl _⟩
  | cons line rest ih =>
    intro done cur hists hok
    by_cases hb : isBlank line = true
    · simp only [pass1go, hb, if_true] at hok
      split at hok
      · cases hok
      · rename_i cur2 heq
        obtain ⟨u, rfl⟩ := pass1go_extends hok
        exact ⟨cur, by simp, le_refl _⟩
    · simp only [pass1go, hb, if_false, Bool.false_eq_true] at hok
      split at hok
      · cases hok
      · rename_i cur2 heq
        obtain ⟨h, hh, hle⟩ := ih hok
        have hstep : mass cur + (chordsOf line).length = mass cur2 := countToks_mass heq
        exact ⟨h, hh, by omega⟩

theorem pass1go_mass_pos {text : List (List Char)} :
    ∀ {done : List Hist} {cur : Hist} {hists : List Hist},
      (∃ l ∈ text, chordsOf l ≠ []) → pass1go done cur text = .ok hists →
      ∃ h ∈ hists, 0 < mass h := by
  induction text with
  | nil =>
    intro _ _ _ hm _
    obtain ⟨l, hl, _⟩ := hm
    cases hl
  | cons line rest ih =>
    intro done cur hists hm hok
    by_cases hline : chordsOf line = []
    · have hm2 : ∃ l ∈ rest, chordsOf l ≠ [] := by
        obtain ⟨l, hl, hne⟩ := hm
        rcases List.mem_cons.mp hl with rfl | hl2
        · exact absurd hline hne
        · exact ⟨l, hl2, hne⟩
      by_cases hb : isBlank line = true
      · simp only [pass1go, hb, if_true] at hok
        split at hok
        · cases hok
        · exact ih hm2 hok
      · simp only [pass1go, hb, if_false, Bool.false_eq_true] at hok
        split at hok
        · cases hok
        · exact ih hm2 hok
    · have hpos : 0 < (chordsOf line).length := List.length_pos.mpr hline
      by_cases hb : isBlank line = true
      · simp only [pass1go, hb, if_true] at hok
        split at hok
        · cases hok
        · rename_i cur2 heq
          have hstep : mass emptyHist + (chordsOf line).length = mass cur2 :=
            countToks_mass heq
          obtain ⟨h, hh, hle⟩ := pass1go_mass_le hok
          exact ⟨h, hh, by omega⟩
      · simp only [pass1go, hb, if_false, Bool.false_eq_true] at hok
        split at hok
        · cases hok
        · rename_i cur2 heq
          have hstep : mass cur + (chordsOf line).length = mass cur2 := countToks_mass heq
          obtain ⟨h, hh, hle⟩ := pass1go_mass_le hok
          exact ⟨h, hh, by omega⟩

theorem mass_pos_count {h : Hist} (hm : 0 < mass h) :
    ∃ i, i < 12 ∧ (0 < h i false ∨ 0 < h i true) := by
  by_contra hc
  push_neg at hc
  have hz : mass h = 0 := by
    unfold mass
    apply List.sum_eq_zero
    intro x hx
    simp only [List.mem_map, List.mem_range] at hx
    obtain ⟨i, hi, rfl⟩ := hx
    have h1 := hc i hi
    omega
  omega

theorem count_pos_val {h : Hist} {i : Nat} (hi : i < 12)
    (hp : 0 < h i false ∨ 0 < h i true) : 0 < (findBestKey h).1 := by
  rcases hp with hp | hp
  · have h1 : 2 * h i false ≤ addend h i i := by
      unfold addend
      have hz : (i + 12 - i % 12) % 12 = 0 := by omega
      rw [hz]
      rw [show chord_multiplier 0 false = 2 from rfl,
        show chord_multiplier 0 true = 0 from rfl]
      omega
    have h2 : addend h i i ≤ paraScore h i := sum_range_term_le hi
    have h3 : paraScore h i ≤ (findBestKey h).1 := findBestKey_ge h hi
    omega
  · have hk : (i + 3) % 12 < 12 := Nat.mod_lt _ (by omega)
    have h1 : 2 * h i true ≤ addend h ((i + 3) % 12) i := by
      unfold addend
      have hz : (i + 12 - ((i + 3) % 12) % 12) % 12 = 9 := by omega
      rw [hz]
      rw [show chord_multiplier 9 false = 0 from rfl,
        show chord_multiplier 9 true = 2 from rfl]
      omega
    have h2 : addend h ((i + 3) % 12) i ≤ paraScore h ((i + 3) % 12) := sum_range_term_le hi
    have h3 : paraScore h ((i + 3) % 12) ≤ (findBestKey h).1 := findBestKey_ge h hk
    omega

theorem computeShiftGo_keyError {target : List Char}
    (hu : chord_to_offset target = none) :
    ∀ {ps : List (Nat × Nat)} {fk : Option Nat}, (∃ p ∈ ps, 0 < p.2) →
      computeShiftGo target ps fk = .error .keyError := by
  intro ps
  induction ps with
  | nil =>
    intro fk hm
    obtain ⟨p, hp, _⟩ := hm
    cases hp
  | cons p rest ih =>
    intro fk hm
    obtain ⟨k, v⟩ := p
    rw [computeShiftGo_cons]
    by_cases hv : 0 < v
    · simp only [hv, if_true, hu]
    · simp only [hv, if_false]
      apply ih
      obtain ⟨q, hq, hqv⟩ := hm
      rcases List.mem_cons.mp hq with rfl | hq2
      · exact absurd hqv hv
      · exact ⟨q, hq2, hqv⟩

/-- C8 (amended): an unknown target key name makes the transposer fail
(KeyError in the shift computation, or earlier in pass 1) before pass 3
begins, provided the document contains at least one chord token; a chordless
document under an unknown target completes instead, passing every line
through unchanged. -/
theorem C8_unknown_key (target : List Char) (text : List (List Char))
    (hu : chord_to_offset target = none) (hc : ∃ l ∈ text, chordsOf l ≠ []) :
    ∃ e, prePass3 target text = .error e ∧
      parse_file_transpose target text = .error e := by
  cases hp : pass1 text with
  | error e =>
    refine ⟨e, ?_, ?_⟩
    · simp only [prePass3, hp]
    · simp only [parse_file_transpose, prePass3, hp]
  | ok hists =>
    obtain ⟨h, hh, hm⟩ := pass1go_mass_pos hc hp
    obtain ⟨i, hi, hip⟩ := mass_pos_count hm
    have hval : 0 < (keyOf h).2 := count_pos_val hi hip
    have hmem : keyOf h ∈ hists.map keyOf := List.mem_map_of_mem _ hh
    have hcs : computeShiftGo target (hists.map keyOf) none = .error .keyError :=
      computeShiftGo_keyError hu ⟨keyOf h, hmem, hval⟩
    refine ⟨.keyError, ?_, ?_⟩
    · simp only [prePass3, hp, hcs]
    · simp only [parse_file_transpose, prePass3, hp, hcs]

theorem C8_unknown_key_witness :
    ∃ e, prePass3 ['X'] [['[', 'C', ']', 'x', '\n']] = .error e ∧
      parse_file_transpose ['X'] [['[', 'C', ']', 'x', '\n']] = .error e :=
  C8_unknown_key ['X'] [['[', 'C', ']', 'x', '\n']] (by decide) (by decide)

/-- C8 counterexample: with the unknown target key `X` and a document with
no chord tokens, the transposer does not fail before pass 3 — it runs to
completion and emits the document unchanged. -/
theorem C8_counterexample :
    chord_to_offset ['X'] = none ∧
    parse_file_transpose ['X'] [['h', 'i', '\n']] = .ok [['h', 'i', '\n']] := by decide

/-- C3: evaluation exposing the key-change slip.  On target `D` with a
G-major first paragraph and a later C-major paragraph (containing `[Eb]`),
the code emits `[A#]` — the paragraph key 0 is never adopted because of the
`if pkey and ...` truthiness test, and `norm` stays `#` because
`first_key in key_norm` compares an int against a list of strings and is
always false.  The spec's described behaviour (adopt the offset, switch
`norm` to `key_norm[offset] = b`) would emit `[Bb]`.  The two
`keyChangeStep` equations show key 0 is dropped and `norm` never switches
even on a nonzero key change; the `keyNormAt` facts show the table entries
the switch was meant to consult. -/
theorem C3_key_change_eval :
    parse_file_transpose ['D']
      [['[', 'G', ']', 'a', '\n'], ['[', 'G', ']', 'b', '\n'], ['\n'],
       ['[', 'C', ']', 'c', ' ', '[', 'C', ']', 'd', ' ',
        '[', 'E', 'b', ']', 'e', '\n']] =
      .ok [['[', 'D', ']', 'a', '\n'], ['[', 'D', ']', 'b', '\n'], ['\n'],
       ['[', 'G', ']', 'c', ' ', '[', 'G', ']', 'd', ' ',
        '[', 'A', '#', ']', 'e', '\n']] ∧
    keyChangeStep (some 7) (some '#') 0 = (some 7, some '#') ∧
    keyChangeStep (some 7) (some '#') 3 = (some 3, some '#') ∧
    keyNormAt 0 = 'b' ∧ keyNormAt 3 = 'b' := by decide

end Pychord
